import Mathlib

/-!
# Falcon-8 firmware encoder (`main.go`)

A shallow embedding of the firmware writer of `main.go`: the layout constants,
`DebugPrintf`, `writeByteAtOffset`, `writeProgramAtOffset`, `padWithZeroes` and
`writeFirmware`, followed by theorems about the bytes they leave in the buffer.

Conventions of the embedding.

* The firmware buffer `*w` is a `List Nat`; a stored byte is a value `< 256`
  (`toByte` is Go's `byte(x)` conversion).
* Go's `uint` and `int` are taken 64 bits wide; `uint` arithmetic is written
  with `uintAdd` / `uintSub`, which wrap modulo `2 ^ 64`.
* Indexing a slice outside its length makes the Go runtime panic, as does the
  explicit `panic` of `writeFirmware`; both end the call, so every operation
  returns `Except Fault`.
* The process state threaded through the calls is `Proc`: the buffer, the text
  printed on standard output, and a ghost list of the indices stored to.
-/

namespace Falcon

/-! ## Layout constants -/

def loc_b1 : Nat := 0x5189
def loc_b2 : Nat := 0x5181
def loc_b3 : Nat := 0x5179
def loc_b4 : Nat := 0x5149
def loc_b5 : Nat := 0x518a
def loc_b6 : Nat := 0x5182
def loc_b7 : Nat := 0x517a
def loc_b8 : Nat := 0x514a

def loc_prog1 : Nat := 0x539c
def loc_prog2 : Nat := 0x56bc
def loc_prog3 : Nat := 0x59dc
def loc_prog4 : Nat := 0x5cfc
def loc_prog5 : Nat := 0x601c
def loc_prog6 : Nat := 0x633c
def loc_prog7 : Nat := 0x665c
def loc_prog8 : Nat := 0x697c

def key_prog1 : Nat := 0xd7
def key_prog2 : Nat := 0xd8
def key_prog3 : Nat := 0xd9
def key_prog4 : Nat := 0xda
def key_prog5 : Nat := 0xdb
def key_prog6 : Nat := 0xdc
def key_prog7 : Nat := 0xdd
def key_prog8 : Nat := 0xde

def fd_stop : Nat := 0xfd

/-! ## Machine integers -/

/-- Number of values of a Go `uint` (64-bit platform). -/
def uintRange : Nat := 2 ^ 64

/-- Largest length of a Go slice: the largest `int`. -/
def maxInt : Nat := 2 ^ 63 - 1

/-- Conversion `uint(x)` of a non-negative `int`. -/
def toUint (x : Nat) : Nat := x % uintRange

/-- Conversion `byte(x)`: the low 8 bits. -/
def toByte (x : Nat) : Nat := x % 256

/-- Addition of two `uint` values, wrapping. -/
def uintAdd (a b : Nat) : Nat := (a + b) % uintRange

/-- Subtraction of two `uint` values, wrapping. -/
def uintSub (a b : Nat) : Nat := (a + (uintRange - b % uintRange)) % uintRange

/-! ## Process state and faults -/

/-- The two ways a call can end abnormally. -/
inductive Fault where
  /-- Runtime panic: index out of range. -/
  | indexOutOfRange
  /-- The `panic("invalid binding state: ...")` of `writeFirmware`. -/
  | invalidBindingState
deriving DecidableEq, Repr

/-- Process state: the buffer `*w`, the lines printed so far, and (ghost) the
indices stored to so far, oldest first. -/
structure Proc where
  mem : List Nat
  out : List String
  writes : List Nat
deriving DecidableEq, Repr

/-- Go `DebugPrintf`: prints only when `DEBUG` is set. The printed line is
recorded as its format string; the rendering of the arguments is left out. -/
def DebugPrintf (DEBUG : Bool) (format : String) (s : Proc) : Proc :=
  if DEBUG then { s with out := s.out ++ [format ++ "\n"] } else s

/-- The indexed store `(*w)[offset] = b`, with the bounds check of the Go
runtime. -/
def store (s : Proc) (b : Nat) (offset : Nat) : Except Fault Proc :=
  if offset < s.mem.length then
    .ok { s with mem := s.mem.set offset b, writes := s.writes ++ [offset] }
  else
    .error .indexOutOfRange

/-- Go `writeByteAtOffset`. -/
def writeByteAtOffset (DEBUG : Bool) (s : Proc) (b : Nat) (offset : Nat) :
    Except Fault Proc :=
  let s := DebugPrintf DEBUG "    writeByteAtOffset byte=0x%x, offset=0x%x" s
  store s b offset

/-! ## Messages (the generated `firmware` package) -/

/-- Modelled from the spec: the enum constant `pb.HIDKeyboardKey_NULL` of the
generated package, the "no key" KeyCode `0x00`. -/
def HIDKeyboardKey_NULL : Nat := 0

/-- One step of a program. The numeric fields are non-negative integers; a key
is the numeric value of its `HIDKeyboardKey`. -/
structure ProgramSet where
  modifier : Nat
  millisecondsBetweenKeys : Nat
  keys : List Nat
deriving DecidableEq, Repr

structure Program where
  programSet : List ProgramSet
deriving DecidableEq, Repr

/-- A button binding; `string` holds the bytes of the Go string. -/
structure ButtonBinding where
  key : Nat
  string : List Nat
  program : Option Program
deriving DecidableEq, Repr

/-- The eight bindings; a message pointer may be `nil` (`none`). -/
structure ButtonBindings where
  button1 : Option ButtonBinding
  button2 : Option ButtonBinding
  button3 : Option ButtonBinding
  button4 : Option ButtonBinding
  button5 : Option ButtonBinding
  button6 : Option ButtonBinding
  button7 : Option ButtonBinding
  button8 : Option ButtonBinding
deriving DecidableEq, Repr

/-- Getter `GetProgramSet`, `nil`-safe like every generated getter. -/
def GetProgramSet (prog : Option Program) : List ProgramSet :=
  match prog with
  | none => []
  | some p => p.programSet

def GetKey (binding : Option ButtonBinding) : Nat :=
  match binding with
  | none => HIDKeyboardKey_NULL
  | some b => b.key

def GetString_ (binding : Option ButtonBinding) : List Nat :=
  match binding with
  | none => []
  | some b => b.string

def GetProgram (binding : Option ButtonBinding) : Option Program :=
  match binding with
  | none => none
  | some b => b.program

/-! ## Program regions -/

/-- Body of the loop `for j := 0; j < 6; j++` of `writeProgramAtOffset`, run for
the values `js` of `j` in order. -/
def writeKeys (DEBUG : Bool) (keys : List Nat) (progset_start : Nat) :
    List Nat → Proc → Except Fault Proc
  | [], s => .ok s
  | j :: js, s => do
      let key := if h : j < keys.length then keys[j] else 0
      let s ← writeByteAtOffset DEBUG s (toByte key) (uintAdd (uintAdd progset_start 2) (toUint j))
      writeKeys DEBUG keys progset_start js s

/-- Body of the loop `for i, ps = range prog.GetProgramSet()` of
`writeProgramAtOffset`, for the step `ps` of index `i`. -/
def writeProgramSet (DEBUG : Bool) (offset : Nat) (i : Nat) (ps : ProgramSet) (s : Proc) :
    Except Fault Proc := do
  let s := DebugPrintf DEBUG "Writing Program #%d" s
  let progset_start := uintAdd offset (toUint (i * 8))
  let s := DebugPrintf DEBUG "Writing GetModifier (program #%d):" s
  let s ← writeByteAtOffset DEBUG s (toByte ps.modifier) progset_start
  let s := DebugPrintf DEBUG "Writing GetMillisecondsBetweenKeys (program #%d):" s
  let s ← writeByteAtOffset DEBUG s (toByte ps.millisecondsBetweenKeys)
    (uintAdd progset_start 1)
  let s := DebugPrintf DEBUG "Writing Program code:" s
  writeKeys DEBUG ps.keys progset_start (List.range 6) s

/-- The loop `for i, ps = range prog.GetProgramSet()` of `writeProgramAtOffset`.
`idx` is the index of the head of the remaining steps and `i` the current value
of the variable `i`, which the loop assigns at each iteration; the final value
of `i` is returned with the state. -/
def writeProgramSets (DEBUG : Bool) (offset : Nat) :
    List ProgramSet → Nat → Nat → Proc → Except Fault (Proc × Nat)
  | [], _, i, s => .ok (s, i)
  | ps :: rest, idx, _, s => do
      let i := idx
      let s ← writeProgramSet DEBUG offset i ps s
      writeProgramSets DEBUG offset rest (idx + 1) i s

/-- The loop `for mem_pos = progset_start; mem_pos < limit; mem_pos += 1` of
`padWithZeroes`, run for the values of `mem_pos` in order. -/
def zeroFrom : List Nat → Proc → Except Fault Proc
  | [], s => .ok s
  | mem_pos :: rest, s => do
      let s ← store s (toByte 0x00) mem_pos
      zeroFrom rest s

/-- Go `padWithZeroes`. The loop bound is `offset+800-8`; `mem_pos` runs from
`progset_start` up to the bound, excluded. -/
def padWithZeroes (DEBUG : Bool) (progset_start : Nat) (offset : Nat) (s : Proc) :
    Except Fault Proc := do
  let s := DebugPrintf DEBUG "Padding remaining program bytes with 0x00:" s
  let s := DebugPrintf DEBUG "    start writeZeroAtOffset byte=0x%x, offset=0x%x" s
  let limit := uintSub (uintAdd offset 800) 8
  let s ← zeroFrom (List.range' progset_start (limit - progset_start)) s
  .ok (DebugPrintf DEBUG "    end   writeZeroAtOffset byte=0x%x, offset=0x%x" s)

/-- Go `writeProgramAtOffset`. -/
def writeProgramAtOffset (DEBUG : Bool) (s : Proc) (prog : Option Program)
    (offset : Nat) : Except Fault Proc := do
  let s := DebugPrintf DEBUG "writeProgramAtOffset prog=%v offset=%v" s
  let (s, i) ← writeProgramSets DEBUG offset (GetProgramSet prog) 0 0 s
  let i := i + 1
  let progset_start := uintAdd offset (toUint (i * 8))
  let s := DebugPrintf DEBUG "Writing Finish with a FD type program set:" s
  let s ← writeByteAtOffset DEBUG s (toByte fd_stop) progset_start
  padWithZeroes DEBUG (uintAdd progset_start 1) offset s

/-! ## The eight buttons -/

/-- One row of the table `bs` of `writeFirmware`. -/
structure Row where
  binding : Option ButtonBinding
  boff : Nat
  key_prog : Nat
  progoff : Nat

/-- The table `bs` of `writeFirmware`. -/
def bs (bindings : ButtonBindings) : List Row :=
  [ ⟨bindings.button1, loc_b1, key_prog1, loc_prog1⟩,
    ⟨bindings.button2, loc_b2, key_prog2, loc_prog2⟩,
    ⟨bindings.button3, loc_b3, key_prog3, loc_prog3⟩,
    ⟨bindings.button4, loc_b4, key_prog4, loc_prog4⟩,
    ⟨bindings.button5, loc_b5, key_prog5, loc_prog5⟩,
    ⟨bindings.button6, loc_b6, key_prog6, loc_prog6⟩,
    ⟨bindings.button7, loc_b7, key_prog7, loc_prog7⟩,
    ⟨bindings.button8, loc_b8, key_prog8, loc_prog8⟩ ]

/-- Body of the loop `for i, b := range bs` of `writeFirmware`. `StringToHID` is
the keycode lookup, given: it returns a key and whether the byte is accepted;
the encoder drops the second component. -/
def writeButton (StringToHID : Nat → Nat × Bool) (DEBUG : Bool) (s : Proc) (b : Row) :
    Except Fault Proc :=
  let binding := b.binding
  let s := DebugPrintf DEBUG "Button #%d, offset = 0x%x" s
  if GetKey binding ≠ HIDKeyboardKey_NULL then
    writeByteAtOffset DEBUG s (toByte (GetKey b.binding)) b.boff
  else if h : GetString_ binding ≠ [] then
    let k := (StringToHID ((GetString_ b.binding).head h)).1
    writeByteAtOffset DEBUG s (toByte k) b.boff
  else if let some prog := GetProgram binding then do
    let s ← writeByteAtOffset DEBUG s (toByte b.key_prog) b.boff
    writeProgramAtOffset DEBUG s (some prog) b.progoff
  else
    .error .invalidBindingState

/-- The loop `for i, b := range bs` over the rows still to do. -/
def writeButtons (StringToHID : Nat → Nat × Bool) (DEBUG : Bool) :
    List Row → Proc → Except Fault Proc
  | [], s => .ok s
  | b :: rest, s => do
      let s ← writeButton StringToHID DEBUG s b
      writeButtons StringToHID DEBUG rest s

/-- Go `writeFirmware`. -/
def writeFirmware (StringToHID : Nat → Nat × Bool) (DEBUG : Bool) (s : Proc)
    (bindings : ButtonBindings) : Except Fault Proc :=
  writeButtons StringToHID DEBUG (bs bindings) s

/-! ## Write lists

The encoder never reads the buffer, so a call is described by the list of the
stores it performs, in order. These definitions are the vocabulary of the
proofs below. -/

/-- Performs the stores `ws` (index, byte) on `m`, first to last. -/
def setMany (m : List Nat) : List (Nat × Nat) → List Nat
  | [] => m
  | p :: ws => setMany (m.set p.1 p.2) ws

/-- Stores of the loop over `j` for a slot starting at `start`. -/
def keyWrites (keys : List Nat) (start : Nat) (js : List Nat) : List (Nat × Nat) :=
  js.map (fun j => (start + 2 + j, toByte (if h : j < keys.length then keys[j] else 0)))

/-- Stores of one iteration of the loop over the steps. -/
def slotWrites (ps : ProgramSet) (start : Nat) : List (Nat × Nat) :=
  (start, toByte ps.modifier) :: (start + 1, toByte ps.millisecondsBetweenKeys) ::
    keyWrites ps.keys start (List.range 6)

/-- Stores of the loop over the steps, the head of `steps` having index `idx`. -/
def stepWrites (offset : Nat) : List ProgramSet → Nat → List (Nat × Nat)
  | [], _ => []
  | ps :: rest, idx => slotWrites ps (offset + idx * 8) ++ stepWrites offset rest (idx + 1)

/-- Stores of the loop of `padWithZeroes` when it runs from `start` to `limit`. -/
def padWrites (start limit : Nat) : List (Nat × Nat) :=
  (List.range' start (limit - start)).map (fun p => (p, 0))

/-- Index of the terminator byte: `offset + (i+1)*8` where `i` is the index of
the last step, or `0` when there is no step. -/
def stopIndex (offset : Nat) (steps : List ProgramSet) : Nat :=
  offset + (steps.length - 1 + 1) * 8

/-- Stores of `writeProgramAtOffset`. -/
def progWrites (offset : Nat) (steps : List ProgramSet) : List (Nat × Nat) :=
  stepWrites offset steps 0 ++
    (stopIndex offset steps, 0xfd) :: padWrites (stopIndex offset steps + 1) (offset + 792)

/-- The eight bytes a step occupies in its slot. -/
def slotBytes (ps : ProgramSet) : List Nat :=
  [toByte ps.modifier, toByte ps.millisecondsBetweenKeys] ++
    ps.keys.map toByte ++ List.replicate (6 - ps.keys.length) 0

/-- The eight bytes stored for a step, as the loop over `j` computes them. -/
def slotRow (ps : ProgramSet) : List Nat :=
  toByte ps.modifier :: toByte ps.millisecondsBetweenKeys ::
    (List.range 6).map (fun j => toByte (if h : j < ps.keys.length then ps.keys[j] else 0))

/-- A call ended normally, having performed exactly the stores `ws` on a buffer
`m` whose earlier stores were at `w`. -/
def Sim (r : Except Fault Proc) (m : List Nat) (w : List Nat) (ws : List (Nat × Nat)) : Prop :=
  ∃ o, r = .ok ⟨setMany m ws, o, w ++ ws.map Prod.fst⟩

/-! ## Vocabulary for bindings and for the table of buttons -/

/-- The binding reaches one of the three encoding branches of `writeFirmware`:
its key is not `NULL`, or its string is not empty, or it has a program. -/
def Populated (b : Option ButtonBinding) : Prop :=
  GetKey b ≠ HIDKeyboardKey_NULL ∨ GetString_ b ≠ [] ∨ GetProgram b ≠ none

/-- The binding reaches the program branch of `writeFirmware`. -/
def TakesProgram (b : Option ButtonBinding) : Prop :=
  GetKey b = HIDKeyboardKey_NULL ∧ GetString_ b = [] ∧ GetProgram b ≠ none

/-- Number of steps of the binding's program, `0` without a program. -/
def stepCount (b : Option ButtonBinding) : Nat :=
  (GetProgramSet (GetProgram b)).length

/-- Stores of one iteration of the loop over the buttons. -/
def rowWrites (StringToHID : Nat → Nat × Bool) (r : Row) : List (Nat × Nat) :=
  if GetKey r.binding ≠ HIDKeyboardKey_NULL then
    [(r.boff, toByte (GetKey r.binding))]
  else if h : GetString_ r.binding ≠ [] then
    [(r.boff, toByte (StringToHID ((GetString_ r.binding).head h)).1)]
  else if GetProgram r.binding ≠ none then
    (r.boff, toByte r.key_prog) :: progWrites r.progoff (GetProgramSet (GetProgram r.binding))
  else
    []

/-- Stores of the loop over the buttons. -/
def tableWrites (StringToHID : Nat → Nat × Bool) : List Row → List (Nat × Nat)
  | [] => []
  | r :: rest => rowWrites StringToHID r ++ tableWrites StringToHID rest

/-- Two rows of a table keep apart: different button offsets, each button
offset below the other row's program region, and program regions of 800 bytes
that do not meet. -/
def Separated (a b : Row) : Prop :=
  a.boff ≠ b.boff ∧ a.boff < b.progoff ∧ b.boff < a.progoff ∧
    (a.progoff + 800 ≤ b.progoff ∨ b.progoff + 800 ≤ a.progoff)

/-- The bindings with the binding of button `k` (1 to 8) replaced. -/
def setButton (bindings : ButtonBindings) (k : Nat) (b : Option ButtonBinding) :
    ButtonBindings :=
  match k with
  | 1 => { bindings with button1 := b }
  | 2 => { bindings with button2 := b }
  | 3 => { bindings with button3 := b }
  | 4 => { bindings with button4 := b }
  | 5 => { bindings with button5 := b }
  | 6 => { bindings with button6 := b }
  | 7 => { bindings with button7 := b }
  | 8 => { bindings with button8 := b }
  | _ => bindings

/-- Bindings for the examples: button 1 is the key `0x04`, button 2 a program
of one step {modifier 0, delay 10, keys [0x04, 0x05]}, buttons 3 to 8 the keys
`0x06` to `0x0b`. -/
def exampleBindings : ButtonBindings :=
  { button1 := some ⟨0x04, [], none⟩
    button2 := some ⟨HIDKeyboardKey_NULL, [], some ⟨[⟨0x00, 10, [0x04, 0x05]⟩]⟩⟩
    button3 := some ⟨0x06, [], none⟩
    button4 := some ⟨0x07, [], none⟩
    button5 := some ⟨0x08, [], none⟩
    button6 := some ⟨0x09, [], none⟩
    button7 := some ⟨0x0a, [], none⟩
    button8 := some ⟨0x0b, [], none⟩ }

/-- A firmware image for the examples: 27804 bytes `0xFF`, nothing printed. -/
def exampleImage : Proc := ⟨List.replicate 27804 0xFF, [], []⟩

/-- The buffer a call returns, or the fault it ends in. -/
def memOf (r : Except Fault Proc) : Except Fault (List Nat) :=
  r.map Proc.mem

/-- Bindings with more than one variant on a button: button 1 has the key
`0x04`, the string "ab" and a program; button 2 has no key, the string "ab" and
a program; buttons 3 to 8 are keys. -/
def mixedBindings : ButtonBindings :=
  { button1 := some ⟨0x04, [0x61, 0x62], some ⟨[⟨0x00, 10, [0x04, 0x05]⟩]⟩⟩
    button2 := some ⟨HIDKeyboardKey_NULL, [0x61, 0x62], some ⟨[⟨0x00, 10, [0x04, 0x05]⟩]⟩⟩
    button3 := some ⟨0x06, [], none⟩
    button4 := some ⟨0x07, [], none⟩
    button5 := some ⟨0x08, [], none⟩
    button6 := some ⟨0x09, [], none⟩
    button7 := some ⟨0x0a, [], none⟩
    button8 := some ⟨0x0b, [], none⟩ }

/-- A relation between the states of two runs that every store and every
print keeps, and under which the two buffers have the same length. -/
structure StoreStable (R : Proc → Proc → Prop) : Prop where
  length_eq : ∀ a b, R a b → a.mem.length = b.mem.length
  store : ∀ a b v off, R a b → off < a.mem.length →
    R { a with mem := a.mem.set off v, writes := a.writes ++ [off] }
      { b with mem := b.mem.set off v, writes := b.writes ++ [off] }
  debug : ∀ a b D f, R a b → R (DebugPrintf D f a) (DebugPrintf D f b)

/-- Two results are related: both end normally in related states, or both end
in the same fault. -/
def Related (R : Proc → Proc → Prop) (r1 r2 : Except Fault Proc) : Prop :=
  match r1, r2 with
  | .ok a, .ok b => R a b
  | .error e1, .error e2 => e1 = e2
  | _, _ => False

/-- The same for results that carry the loop variable `i`. -/
def RelatedIdx (R : Proc → Proc → Prop) (r1 r2 : Except Fault (Proc × Nat)) : Prop :=
  match r1, r2 with
  | .ok a, .ok b => R a.1 b.1 ∧ a.2 = b.2
  | .error e1, .error e2 => e1 = e2
  | _, _ => False

/-- Both buffers have length `n`. -/
def SameLength (n : Nat) (a b : Proc) : Prop :=
  a.mem.length = n ∧ b.mem.length = n

/-- State `b` of a second run against state `a` of a first run whose final
buffer is `F`: same length, and each byte of `b` is the byte of `a` or already
the final byte. -/
def Settled (F : List Nat) (a b : Proc) : Prop :=
  a.mem.length = b.mem.length ∧
    ∀ idx : Nat, b.mem[idx]? = a.mem[idx]? ∨ b.mem[idx]? = F[idx]?

/-- The step with its key list cut to its first 6 keys. -/
def cutKeys (ps : ProgramSet) : ProgramSet :=
  { ps with keys := ps.keys.take 6 }

/-! ## Machine arithmetic without wrap-around -/

theorem toUint_of_lt {x : Nat} (h : x ≤ maxInt) : toUint x = x := by
  unfold toUint uintRange
  unfold maxInt at h
  exact Nat.mod_eq_of_lt (by omega)

theorem uintAdd_of_le {a b : Nat} (h : a + b ≤ maxInt + 800) : uintAdd a b = a + b := by
  unfold uintAdd uintRange
  unfold maxInt at h
  exact Nat.mod_eq_of_lt (by omega)

theorem uintSub_of_le {a b : Nat} (hb : b ≤ a) (ha : a ≤ maxInt + 800) :
    uintSub a b = a - b := by
  unfold uintSub uintRange
  unfold maxInt at ha
  have hb2 : b % 2 ^ 64 = b := Nat.mod_eq_of_lt (by omega)
  rw [hb2]
  have : a + (2 ^ 64 - b) = (a - b) + 2 ^ 64 := by omega
  rw [this, Nat.add_mod_right]
  exact Nat.mod_eq_of_lt (by omega)

/-! ## Lists of stores -/

@[simp] theorem length_setMany (ws : List (Nat × Nat)) (m : List Nat) :
    (setMany m ws).length = m.length := by
  induction ws generalizing m with
  | nil => rfl
  | cons p ws ih => simp [setMany, ih]

theorem setMany_append (m : List Nat) (a b : List (Nat × Nat)) :
    setMany m (a ++ b) = setMany (setMany m a) b := by
  induction a generalizing m with
  | nil => rfl
  | cons p a ih => simp [setMany, ih]

/-- Frame: an index no store is at keeps its byte. -/
theorem getElem?_setMany_of_not_mem (ws : List (Nat × Nat)) (m : List Nat) (idx : Nat)
    (h : ∀ p ∈ ws, p.1 ≠ idx) : (setMany m ws)[idx]? = m[idx]? := by
  induction ws generalizing m with
  | nil => rfl
  | cons p ws ih =>
    have hp : p.1 ≠ idx := h p (List.mem_cons_self _ _)
    rw [setMany, ih _ (fun q hq => h q (List.mem_cons_of_mem _ hq)),
      List.getElem?_set_ne hp]

/-- With no index stored to twice, each store is visible at the end. -/
theorem getElem?_setMany_of_mem (ws : List (Nat × Nat)) (m : List Nat) (idx v : Nat)
    (hnd : (ws.map Prod.fst).Nodup) (hmem : (idx, v) ∈ ws) (hlt : idx < m.length) :
    (setMany m ws)[idx]? = some v := by
  induction ws generalizing m with
  | nil => simp at hmem
  | cons p ws ih =>
    rw [List.map_cons, List.nodup_cons] at hnd
    rw [setMany]
    rcases List.mem_cons.mp hmem with hp | hp
    · subst hp
      rw [getElem?_setMany_of_not_mem]
      · simp [List.getElem?_set, hlt]
      · intro q hq hqi
        exact hnd.1 (List.mem_map.mpr ⟨q, hq, hqi⟩)
    · exact ih _ hnd.2 hp (by simpa using hlt)

/-! ## Each operation performs its list of stores -/

@[simp] theorem DebugPrintf_mem (D : Bool) (f : String) (s : Proc) :
    (DebugPrintf D f s).mem = s.mem := by
  unfold DebugPrintf
  split <;> rfl

@[simp] theorem DebugPrintf_writes (D : Bool) (f : String) (s : Proc) :
    (DebugPrintf D f s).writes = s.writes := by
  unfold DebugPrintf
  split <;> rfl

theorem Sim.bind {r : Except Fault Proc} {k : Proc → Except Fault Proc} {m w : List Nat}
    {a b : List (Nat × Nat)} (h1 : Sim r m w a)
    (h2 : ∀ s1 : Proc, s1.mem = setMany m a → s1.writes = w ++ a.map Prod.fst →
      Sim (k s1) s1.mem s1.writes b) :
    Sim (r >>= k) m w (a ++ b) := by
  obtain ⟨o, rfl⟩ := h1
  obtain ⟨o2, h⟩ := h2 ⟨setMany m a, o, w ++ a.map Prod.fst⟩ rfl rfl
  refine ⟨o2, ?_⟩
  show k _ = _
  rw [h]
  simp [setMany_append]

theorem store_sim (s : Proc) (b off : Nat) (h : off < s.mem.length) :
    Sim (store s b off) s.mem s.writes [(off, b)] := by
  refine ⟨s.out, ?_⟩
  simp [store, h, setMany]

theorem writeByteAtOffset_sim (D : Bool) (s : Proc) (b off : Nat) (h : off < s.mem.length) :
    Sim (writeByteAtOffset D s b off) s.mem s.writes [(off, b)] := by
  have := store_sim (DebugPrintf D "    writeByteAtOffset byte=0x%x, offset=0x%x" s) b off
    (by simpa using h)
  simpa [writeByteAtOffset] using this

theorem writeKeys_sim (D : Bool) (keys : List Nat) (start : Nat) (js : List Nat) (s : Proc)
    (hjs : ∀ j ∈ js, j < 6) (hlen : start + 8 ≤ s.mem.length) (hmax : s.mem.length ≤ maxInt) :
    Sim (writeKeys D keys start js s) s.mem s.writes (keyWrites keys start js) := by
  induction js generalizing s with
  | nil => exact ⟨s.out, by simp [writeKeys, keyWrites, setMany]⟩
  | cons j js ih =>
    have hj : j < 6 := hjs j (List.mem_cons_self _ _)
    have e : uintAdd (uintAdd start 2) (toUint j) = start + 2 + j := by
      rw [toUint_of_lt (by omega), uintAdd_of_le (a := start) (by omega),
        uintAdd_of_le (by omega)]
    rw [writeKeys, e]
    refine Sim.bind (a := [_]) (writeByteAtOffset_sim D s _ _ (by omega)) ?_
    intro s1 hm _
    have hl : s1.mem.length = s.mem.length := by rw [hm, length_setMany]
    exact ih s1 (fun i hi => hjs i (List.mem_cons_of_mem _ hi)) (by omega) (by omega)

theorem writeProgramSet_sim (D : Bool) (offset i : Nat) (ps : ProgramSet) (s : Proc)
    (hlen : offset + i * 8 + 8 ≤ s.mem.length) (hmax : s.mem.length ≤ maxInt) :
    Sim (writeProgramSet D offset i ps s) s.mem s.writes (slotWrites ps (offset + i * 8)) := by
  have e : uintAdd offset (toUint (i * 8)) = offset + i * 8 := by
    rw [toUint_of_lt (by omega), uintAdd_of_le (by omega)]
  have e1 : uintAdd (offset + i * 8) 1 = offset + i * 8 + 1 := uintAdd_of_le (by omega)
  unfold writeProgramSet
  simp only [e, e1]
  refine Sim.bind (a := [_]) (b := _ :: _) ?_ ?_
  · simpa using writeByteAtOffset_sim D (DebugPrintf D _ (DebugPrintf D _ s)) _ _
      (by simpa using (by omega : offset + i * 8 < s.mem.length))
  intro s1 hm1 _
  have hl1 : s1.mem.length = s.mem.length := by rw [hm1, length_setMany]
  refine Sim.bind (a := [_]) ?_ ?_
  · simpa using writeByteAtOffset_sim D (DebugPrintf D _ s1) _ _
      (by simpa using (by omega : offset + i * 8 + 1 < s1.mem.length))
  intro s2 hm2 _
  have hl2 : s2.mem.length = s.mem.length := by rw [hm2, length_setMany, hl1]
  simpa using writeKeys_sim D ps.keys (offset + i * 8) (List.range 6) (DebugPrintf D _ s2)
    (fun j hj => List.mem_range.mp hj) (by simpa using (by omega : offset + i * 8 + 8 ≤ s2.mem.length))
    (by simpa using (by omega : s2.mem.length ≤ maxInt))

theorem writeProgramSets_sim (D : Bool) (offset : Nat) (steps : List ProgramSet)
    (idx i : Nat) (s : Proc)
    (hlen : offset + (idx + steps.length) * 8 ≤ s.mem.length) (hmax : s.mem.length ≤ maxInt) :
    ∃ o, writeProgramSets D offset steps idx i s =
      .ok (⟨setMany s.mem (stepWrites offset steps idx), o,
              s.writes ++ (stepWrites offset steps idx).map Prod.fst⟩,
            if steps = [] then i else idx + steps.length - 1) := by
  induction steps generalizing idx i s with
  | nil => exact ⟨s.out, by simp [writeProgramSets, stepWrites, setMany]⟩
  | cons ps rest ih =>
    rw [List.length_cons] at hlen
    obtain ⟨o1, h1⟩ := writeProgramSet_sim D offset idx ps s (by omega) hmax
    rw [writeProgramSets]
    simp only [h1, bind, Except.bind]
    obtain ⟨o2, h2⟩ := ih (idx + 1) idx ⟨setMany s.mem (slotWrites ps (offset + idx * 8)), o1,
      s.writes ++ (slotWrites ps (offset + idx * 8)).map Prod.fst⟩
      (by simp only [length_setMany]; omega) (by simpa using hmax)
    refine ⟨o2, ?_⟩
    rw [h2]
    simp only [stepWrites, setMany_append, List.map_append, List.append_assoc]
    congr 2
    cases rest <;> simp
    omega

theorem zeroFrom_sim (l : List Nat) (s : Proc) (h : ∀ p ∈ l, p < s.mem.length) :
    Sim (zeroFrom l s) s.mem s.writes (l.map (fun p => (p, 0))) := by
  induction l generalizing s with
  | nil => exact ⟨s.out, by simp [zeroFrom, setMany]⟩
  | cons p l ih =>
    rw [zeroFrom]
    refine Sim.bind (a := [_]) (store_sim s _ p (h p (List.mem_cons_self _ _))) ?_
    intro s1 hm _
    refine ih s1 (fun q hq => ?_)
    rw [hm, length_setMany]
    exact h q (List.mem_cons_of_mem _ hq)

theorem Sim_ok_DebugPrintf (D : Bool) (f : String) (s : Proc) :
    Sim (.ok (DebugPrintf D f s)) s.mem s.writes [] := by
  refine ⟨(DebugPrintf D f s).out, ?_⟩
  cases D <;> simp [DebugPrintf, setMany]

theorem padWithZeroes_sim (D : Bool) (start offset : Nat) (s : Proc)
    (hoff : offset ≤ maxInt) (hlen : start < offset + 792 → offset + 792 ≤ s.mem.length) :
    Sim (padWithZeroes D start offset s) s.mem s.writes (padWrites start (offset + 792)) := by
  have e : uintSub (uintAdd offset 800) 8 = offset + 792 := by
    rw [uintAdd_of_le (by omega), uintSub_of_le (by omega) (by omega)]
    omega
  unfold padWithZeroes
  simp only [e]
  have h := zeroFrom_sim (List.range' start (offset + 792 - start))
    (DebugPrintf D "    start writeZeroAtOffset byte=0x%x, offset=0x%x"
      (DebugPrintf D "Padding remaining program bytes with 0x00:" s))
    (by
      intro p hp
      rw [List.mem_range'_1] at hp
      simp only [DebugPrintf_mem]
      omega)
  have h2 := Sim.bind (k := fun s1 =>
    .ok (DebugPrintf D "    end   writeZeroAtOffset byte=0x%x, offset=0x%x" s1)) h
    (fun s1 _ _ => Sim_ok_DebugPrintf D _ s1)
  simpa [padWrites] using h2

theorem writeProgramAtOffset_sim (D : Bool) (s : Proc) (prog : Option Program) (offset : Nat)
    (h1 : offset + 8 * (GetProgramSet prog).length < s.mem.length)
    (h2 : offset + 792 ≤ s.mem.length) (hmax : s.mem.length ≤ maxInt) :
    Sim (writeProgramAtOffset D s prog offset) s.mem s.writes
      (progWrites offset (GetProgramSet prog)) := by
  obtain ⟨o1, e1⟩ := writeProgramSets_sim D offset (GetProgramSet prog) 0 0
    (DebugPrintf D "writeProgramAtOffset prog=%v offset=%v" s)
    (by simp only [DebugPrintf_mem]; omega) (by simpa using hmax)
  have hi : (if GetProgramSet prog = [] then 0 else 0 + (GetProgramSet prog).length - 1) =
      (GetProgramSet prog).length - 1 := by
    split
    · next h => simp [h]
    · simp
  rw [hi] at e1
  have hstop : stopIndex offset (GetProgramSet prog) < s.mem.length := by
    unfold stopIndex
    omega
  have e : uintAdd offset (toUint (((GetProgramSet prog).length - 1 + 1) * 8)) =
      stopIndex offset (GetProgramSet prog) := by
    unfold stopIndex at hstop ⊢
    rw [toUint_of_lt (by omega), uintAdd_of_le (by omega)]
  have e2 : uintAdd (stopIndex offset (GetProgramSet prog)) 1 =
      stopIndex offset (GetProgramSet prog) + 1 := uintAdd_of_le (by omega)
  unfold writeProgramAtOffset
  simp only [e1, bind, Except.bind, e, e2]
  simp only [DebugPrintf_mem, DebugPrintf_writes]
  have hb := Sim.bind (k := fun s1 =>
      padWithZeroes D (stopIndex offset (GetProgramSet prog) + 1) offset s1)
    (writeByteAtOffset_sim D
      (DebugPrintf D "Writing Finish with a FD type program set:"
        ⟨setMany s.mem (stepWrites offset (GetProgramSet prog) 0), o1,
          s.writes ++ (stepWrites offset (GetProgramSet prog) 0).map Prod.fst⟩)
      (toByte fd_stop) (stopIndex offset (GetProgramSet prog))
      (by simpa using hstop))
    (fun s1 hm _ => padWithZeroes_sim D _ offset s1 (by omega) (by
      intro _
      rw [hm]
      simpa using h2))
  obtain ⟨o3, e3⟩ := hb
  refine ⟨o3, ?_⟩
  simp only [bind, Except.bind] at e3
  rw [e3]
  simp [progWrites, setMany_append, setMany, toByte, fd_stop]

/-! ## Where the stores of a program go, and what they hold -/

theorem slotWrites_fst (ps : ProgramSet) (start : Nat) :
    (slotWrites ps start).map Prod.fst = List.range' start 8 := by
  simp [slotWrites, keyWrites, List.range, List.range.loop, List.range']

theorem slotWrites_mem (ps : ProgramSet) (start t : Nat) (ht : t < 8) :
    (start + t, (slotRow ps).getD t 0) ∈ slotWrites ps start := by
  interval_cases t <;>
    simp [slotWrites, keyWrites, slotRow, List.range, List.range.loop]

theorem stepWrites_fst (offset : Nat) (steps : List ProgramSet) (idx : Nat) :
    (stepWrites offset steps idx).map Prod.fst =
      List.range' (offset + idx * 8) (8 * steps.length) := by
  induction steps generalizing idx with
  | nil => simp [stepWrites]
  | cons ps rest ih =>
    rw [stepWrites, List.map_append, slotWrites_fst, ih, List.length_cons,
      show 8 * (rest.length + 1) = 8 + 8 * rest.length by ring,
      show offset + (idx + 1) * 8 = offset + idx * 8 + 8 by ring,
      List.range'_append_1, Nat.add_comm 8]

theorem stepWrites_mem (offset : Nat) (steps : List ProgramSet) (idx i t : Nat)
    (hi : i < steps.length) (ht : t < 8) :
    (offset + (idx + i) * 8 + t, (slotRow (steps.get ⟨i, hi⟩)).getD t 0) ∈
      stepWrites offset steps idx := by
  induction steps generalizing idx i with
  | nil => simp at hi
  | cons ps rest ih =>
    rw [stepWrites, List.mem_append]
    cases i with
    | zero => exact Or.inl (by simpa using slotWrites_mem ps (offset + idx * 8) t ht)
    | succ i =>
      right
      have := ih (idx + 1) i (by simpa using hi)
      simpa [Nat.add_assoc, Nat.add_comm 1 i] using this

theorem progWrites_fst (offset : Nat) (steps : List ProgramSet) :
    (progWrites offset steps).map Prod.fst =
      List.range' offset (8 * steps.length) ++
        List.range' (stopIndex offset steps) (1 + (offset + 792 - (stopIndex offset steps + 1))) := by
  have hpad : ∀ l : List Nat, l.map (Prod.fst ∘ fun p => (p, 0)) = l := by
    intro l
    induction l with
    | nil => rfl
    | cons a l ih => simp [ih]
  simp [progWrites, stepWrites_fst, padWrites, List.range'_succ, Nat.add_comm 1, hpad]

theorem mem_progWrites_fst (offset : Nat) (steps : List ProgramSet) (idx : Nat) :
    idx ∈ (progWrites offset steps).map Prod.fst ↔
      (offset ≤ idx ∧ idx < offset + 8 * steps.length) ∨
      idx = stopIndex offset steps ∨
      (stopIndex offset steps < idx ∧ idx < offset + 792) := by
  rw [progWrites_fst, List.mem_append, List.mem_range'_1, List.mem_range'_1]
  omega

theorem stopIndex_ge (offset : Nat) (steps : List ProgramSet) :
    offset + 8 * steps.length ≤ stopIndex offset steps := by
  unfold stopIndex
  omega

theorem progWrites_nodup (offset : Nat) (steps : List ProgramSet) :
    ((progWrites offset steps).map Prod.fst).Nodup := by
  rw [progWrites_fst]
  refine List.Nodup.append (List.nodup_range' _ _) (List.nodup_range' _ _) ?_
  intro a ha hb
  rw [List.mem_range'_1] at ha hb
  have := stopIndex_ge offset steps
  omega

theorem getElem?_prog_step (m : List Nat) (offset : Nat) (steps : List ProgramSet)
    (i t : Nat) (hi : i < steps.length) (ht : t < 8) (hlt : offset + i * 8 + t < m.length) :
    (setMany m (progWrites offset steps))[offset + i * 8 + t]? =
      some ((slotRow (steps.get ⟨i, hi⟩)).getD t 0) := by
  refine getElem?_setMany_of_mem _ _ _ _ (progWrites_nodup offset steps) ?_ hlt
  unfold progWrites
  rw [List.mem_append]
  left
  simpa using stepWrites_mem offset steps 0 i t hi ht

theorem getElem?_prog_stop (m : List Nat) (offset : Nat) (steps : List ProgramSet)
    (hlt : stopIndex offset steps < m.length) :
    (setMany m (progWrites offset steps))[stopIndex offset steps]? = some 0xfd := by
  refine getElem?_setMany_of_mem _ _ _ _ (progWrites_nodup offset steps) ?_ hlt
  unfold progWrites
  simp

theorem getElem?_prog_zero (m : List Nat) (offset : Nat) (steps : List ProgramSet) (idx : Nat)
    (hlo : stopIndex offset steps < idx) (hhi : idx < offset + 792) (hlt : idx < m.length) :
    (setMany m (progWrites offset steps))[idx]? = some 0 := by
  refine getElem?_setMany_of_mem _ _ _ _ (progWrites_nodup offset steps) ?_ hlt
  unfold progWrites padWrites
  rw [List.mem_append, List.mem_cons, List.mem_map]
  right; right
  exact ⟨idx, by rw [List.mem_range'_1]; omega, rfl⟩

theorem getElem?_prog_frame (m : List Nat) (offset : Nat) (steps : List ProgramSet) (idx : Nat)
    (h : idx ∉ (progWrites offset steps).map Prod.fst) :
    (setMany m (progWrites offset steps))[idx]? = m[idx]? := by
  refine getElem?_setMany_of_not_mem _ _ _ (fun p hp hpi => h ?_)
  exact List.mem_map.mpr ⟨p, hp, hpi⟩

theorem slotRow_length (ps : ProgramSet) : (slotRow ps).length = 8 := by
  simp [slotRow]

theorem slotRow_eq_slotBytes (ps : ProgramSet) (h : ps.keys.length ≤ 6) :
    slotRow ps = slotBytes ps := by
  obtain ⟨a, b, keys⟩ := ps
  simp only at h
  match keys, h with
  | [], _ => rfl
  | [_], _ => rfl
  | [_, _], _ => rfl
  | [_, _, _], _ => rfl
  | [_, _, _, _], _ => rfl
  | [_, _, _, _, _], _ => rfl
  | [_, _, _, _, _, _], _ => rfl
  | _ :: _ :: _ :: _ :: _ :: _ :: _ :: _, h => simp at h

theorem take_drop_eq (l row : List Nat) (k : Nat)
    (h : ∀ t, t < row.length → l[k + t]? = some (row.getD t 0)) :
    (l.drop k).take row.length = row := by
  apply List.ext_getElem?
  intro t
  by_cases ht : t < row.length
  · rw [List.getElem?_take_of_lt ht, List.getElem?_drop, h t ht]
    simp [List.getD, List.getElem?_eq_getElem ht]
  · have hl : (List.take row.length (List.drop k l)).length ≤ row.length := by
      rw [List.length_take]
      exact Nat.min_le_left _ _
    rw [List.getElem?_eq_none (by omega), List.getElem?_eq_none (by omega)]

theorem writeProgramAtOffset_ok (D : Bool) (s : Proc) (prog : Option Program) (offset : Nat)
    (h1 : offset + 8 * (GetProgramSet prog).length < s.mem.length)
    (h2 : offset + 792 ≤ s.mem.length) (hmax : s.mem.length ≤ maxInt) :
    ∃ s2, writeProgramAtOffset D s prog offset = .ok s2 ∧
      s2.mem = setMany s.mem (progWrites offset (GetProgramSet prog)) ∧
      s2.writes = s.writes ++ (progWrites offset (GetProgramSet prog)).map Prod.fst := by
  obtain ⟨o, h⟩ := writeProgramAtOffset_sim D s prog offset h1 h2 hmax
  exact ⟨_, h, rfl, rfl⟩

theorem stopIndex_of_pos (offset : Nat) (steps : List ProgramSet) (h : 1 ≤ steps.length) :
    stopIndex offset steps = offset + 8 * steps.length := by
  unfold stopIndex
  omega

/-! ## The program region -/

/-- C1, counterexample: one step encoded at offset 0 over a region filled with
`0xAA` leaves `0xAA` at index 799, the last byte of the 800-byte region. -/
theorem zero_fill_stops_before_last_slot :
    ∃ s2, writeProgramAtOffset false ⟨List.replicate 800 0xAA, [], []⟩
        (some ⟨[⟨0, 0, []⟩]⟩) 0 = .ok s2 ∧ s2.mem[799]? = some 0xAA := by
  obtain ⟨s2, h, hm, _⟩ := writeProgramAtOffset_ok false ⟨List.replicate 800 0xAA, [], []⟩
    (some ⟨[⟨0, 0, []⟩]⟩) 0 (by simp only [List.length_replicate, GetProgramSet, List.length_cons, List.length_nil]; omega)
    (by simp only [List.length_replicate]; omega)
    (by simp only [List.length_replicate, maxInt]; omega)
  refine ⟨s2, h, ?_⟩
  rw [hm, getElem?_prog_frame]
  · simp only [List.getElem?_replicate]
    rw [if_pos (by omega)]
  · rw [mem_progWrites_fst]
    simp [GetProgramSet, stopIndex]

/-- C1, amended: for a program of n >= 1 steps and a buffer holding the bytes
offset .. offset+8n and offset .. offset+791, after `writeProgramAtOffset`
every byte from offset+8n+1 through offset+791 is `0x00`, whatever the buffer
held before; the zero-fill stops there, and when n <= 98 the bytes offset+792 ..
offset+799 are the ones the buffer held before the call. -/
theorem zero_fill_after_stop (D : Bool) (s : Proc) (prog : Option Program) (offset : Nat)
    (hn : 1 ≤ (GetProgramSet prog).length)
    (h1 : offset + 8 * (GetProgramSet prog).length < s.mem.length)
    (h2 : offset + 792 ≤ s.mem.length) (hmax : s.mem.length ≤ maxInt) :
    ∃ s2, writeProgramAtOffset D s prog offset = .ok s2 ∧
      (∀ idx, offset + 8 * (GetProgramSet prog).length + 1 ≤ idx → idx ≤ offset + 791 →
        s2.mem[idx]? = some 0x00) ∧
      ((GetProgramSet prog).length ≤ 98 → ∀ idx, offset + 792 ≤ idx → idx ≤ offset + 799 →
        s2.mem[idx]? = s.mem[idx]?) := by
  obtain ⟨s2, h, hm, _⟩ := writeProgramAtOffset_ok D s prog offset h1 h2 hmax
  have hs := stopIndex_of_pos offset _ hn
  refine ⟨s2, h, ?_, ?_⟩
  · intro idx hlo hhi
    rw [hm]
    exact getElem?_prog_zero _ _ _ _ (by omega) (by omega) (by omega)
  · intro h98 idx hlo hhi
    rw [hm, getElem?_prog_frame]
    rw [mem_progWrites_fst]
    omega

/-- C1, amended, on an input: two steps at offset 16 in a buffer of 900 bytes. -/
theorem zero_fill_after_stop_witness :
    1 ≤ (GetProgramSet (some ⟨[⟨0, 10, [4, 5]⟩, ⟨2, 0, [6]⟩]⟩)).length ∧
    ∃ s2, writeProgramAtOffset true ⟨List.replicate 900 0xAA, [], []⟩
        (some ⟨[⟨0, 10, [4, 5]⟩, ⟨2, 0, [6]⟩]⟩) 16 = .ok s2 ∧
      (∀ idx, 16 + 8 * 2 + 1 ≤ idx → idx ≤ 16 + 791 → s2.mem[idx]? = some 0x00) ∧
      (2 ≤ 98 → ∀ idx, 16 + 792 ≤ idx → idx ≤ 16 + 799 → s2.mem[idx]? = some 0xAA) := by
  refine ⟨by simp [GetProgramSet], ?_⟩
  obtain ⟨s2, h, hz, hk⟩ := zero_fill_after_stop true ⟨List.replicate 900 0xAA, [], []⟩
    (some ⟨[⟨0, 10, [4, 5]⟩, ⟨2, 0, [6]⟩]⟩) 16 (by simp [GetProgramSet])
    (by simp only [List.length_replicate, GetProgramSet, List.length_cons, List.length_nil]; omega)
    (by simp only [List.length_replicate]; omega)
    (by simp only [List.length_replicate, maxInt]; omega)
  refine ⟨s2, h, hz, fun h98 idx hlo hhi => ?_⟩
  rw [hk h98 idx hlo hhi]
  simp only [List.getElem?_replicate]
  rw [if_pos (by omega)]

/-- C2: for a program of n steps and a step index i < n whose step has at most
6 keys, in a buffer holding the bytes the call stores to, after
`writeProgramAtOffset` the 8 bytes at offset+8i .. offset+8i+7 are the step's
modifier byte, its delay byte, its keys in input order and then `0x00` up to
the sixth key position (each value as its `byte` conversion, the value itself
when it fits a byte). These are the bytes of the final buffer, so neither the
padding of the keys nor any later store of the call has changed them. -/
theorem step_slot_bytes (D : Bool) (s : Proc) (prog : Option Program) (offset i : Nat)
    (hi : i < (GetProgramSet prog).length)
    (hk : ((GetProgramSet prog).get ⟨i, hi⟩).keys.length ≤ 6)
    (h1 : offset + 8 * (GetProgramSet prog).length < s.mem.length)
    (h2 : offset + 792 ≤ s.mem.length) (hmax : s.mem.length ≤ maxInt) :
    ∃ s2, writeProgramAtOffset D s prog offset = .ok s2 ∧
      (s2.mem.drop (offset + 8 * i)).take 8 =
        [toByte ((GetProgramSet prog).get ⟨i, hi⟩).modifier,
          toByte ((GetProgramSet prog).get ⟨i, hi⟩).millisecondsBetweenKeys] ++
        ((GetProgramSet prog).get ⟨i, hi⟩).keys.map toByte ++
        List.replicate (6 - ((GetProgramSet prog).get ⟨i, hi⟩).keys.length) 0x00 := by
  obtain ⟨s2, h, hm, _⟩ := writeProgramAtOffset_ok D s prog offset h1 h2 hmax
  refine ⟨s2, h, ?_⟩
  have hrow := slotRow_eq_slotBytes _ hk
  unfold slotBytes at hrow
  rw [← hrow]
  have := take_drop_eq s2.mem (slotRow ((GetProgramSet prog).get ⟨i, hi⟩)) (offset + 8 * i)
    (by
      intro t ht
      rw [slotRow_length] at ht
      rw [hm, Nat.mul_comm 8 i]
      exact getElem?_prog_step _ _ _ _ _ hi ht (by omega))
  rwa [slotRow_length] at this

/-- C2 on an input: the step {modifier 0, delay 10, keys [4, 5]} followed by a
second step, at offset 16. -/
theorem step_slot_bytes_witness :
    ∃ s2, writeProgramAtOffset true ⟨List.replicate 900 0xAA, [], []⟩
        (some ⟨[⟨0, 10, [4, 5]⟩, ⟨2, 0, [6]⟩]⟩) 16 = .ok s2 ∧
      (s2.mem.drop 16).take 8 = [0, 10, 4, 5, 0, 0, 0, 0] := by
  exact step_slot_bytes true ⟨List.replicate 900 0xAA, [], []⟩
    (some ⟨[⟨0, 10, [4, 5]⟩, ⟨2, 0, [6]⟩]⟩) 16 0
    (by simp only [GetProgramSet, List.length_cons, List.length_nil]; omega)
    (by simp only [GetProgramSet, List.get, List.length_cons, List.length_nil]; omega)
    (by simp only [List.length_replicate, GetProgramSet, List.length_cons, List.length_nil]; omega)
    (by simp only [List.length_replicate]; omega)
    (by simp only [List.length_replicate, maxInt]; omega)

/-- C3: for a program of n >= 1 steps, in a buffer holding the bytes the call
stores to, after `writeProgramAtOffset` the byte at offset+8n is the stop
sentinel `0xFD`, and every byte of the n step slots offset .. offset+8n-1 is
the byte it held when the loop over the steps ended (state `s1`): the
terminator and the zero-fill stored nothing there. -/
theorem stop_sentinel_after_last_step (D : Bool) (s : Proc) (prog : Option Program)
    (offset : Nat) (hn : 1 ≤ (GetProgramSet prog).length)
    (h1 : offset + 8 * (GetProgramSet prog).length < s.mem.length)
    (h2 : offset + 792 ≤ s.mem.length) (hmax : s.mem.length ≤ maxInt) :
    ∃ s1 i s2,
      writeProgramSets D offset (GetProgramSet prog) 0 0
        (DebugPrintf D "writeProgramAtOffset prog=%v offset=%v" s) = .ok (s1, i) ∧
      writeProgramAtOffset D s prog offset = .ok s2 ∧
      s2.mem[offset + 8 * (GetProgramSet prog).length]? = some 0xFD ∧
      ∀ idx, offset ≤ idx → idx < offset + 8 * (GetProgramSet prog).length →
        s2.mem[idx]? = s1.mem[idx]? := by
  obtain ⟨o1, e1⟩ := writeProgramSets_sim D offset (GetProgramSet prog) 0 0
    (DebugPrintf D "writeProgramAtOffset prog=%v offset=%v" s)
    (by simp only [DebugPrintf_mem]; omega) (by simpa using hmax)
  obtain ⟨s2, h, hm, _⟩ := writeProgramAtOffset_ok D s prog offset h1 h2 hmax
  have hs := stopIndex_of_pos offset _ hn
  refine ⟨_, _, s2, e1, h, ?_, ?_⟩
  · rw [hm, ← hs]
    exact getElem?_prog_stop _ _ _ (by omega)
  · intro idx _ hhi
    rw [hm]
    simp only [DebugPrintf_mem, progWrites, setMany_append]
    refine getElem?_setMany_of_not_mem _ _ _ ?_
    intro p hp
    rw [List.mem_cons] at hp
    rcases hp with rfl | hp
    · simp only
      omega
    · unfold padWrites at hp
      rw [List.mem_map] at hp
      obtain ⟨q, hq, rfl⟩ := hp
      rw [List.mem_range'_1] at hq
      simp only
      omega

/-- C3 on an input: two steps at offset 16 put `0xFD` at index 32. -/
theorem stop_sentinel_after_last_step_witness :
    ∃ s1 i s2,
      writeProgramSets true 16 (GetProgramSet (some ⟨[⟨0, 10, [4, 5]⟩, ⟨2, 0, [6]⟩]⟩)) 0 0
        (DebugPrintf true "writeProgramAtOffset prog=%v offset=%v"
          ⟨List.replicate 900 0xAA, [], []⟩) = .ok (s1, i) ∧
      writeProgramAtOffset true ⟨List.replicate 900 0xAA, [], []⟩
        (some ⟨[⟨0, 10, [4, 5]⟩, ⟨2, 0, [6]⟩]⟩) 16 = .ok s2 ∧
      s2.mem[32]? = some 0xFD ∧
      ∀ idx, 16 ≤ idx → idx < 32 → s2.mem[idx]? = s1.mem[idx]? :=
  stop_sentinel_after_last_step true ⟨List.replicate 900 0xAA, [], []⟩
    (some ⟨[⟨0, 10, [4, 5]⟩, ⟨2, 0, [6]⟩]⟩) 16
    (by simp only [GetProgramSet, List.length_cons, List.length_nil]; omega)
    (by simp only [List.length_replicate, GetProgramSet, List.length_cons, List.length_nil]; omega)
    (by simp only [List.length_replicate]; omega)
    (by simp only [List.length_replicate, maxInt]; omega)

/-! ## The loop over the buttons performs its list of stores -/

theorem not_populated_iff (b : Option ButtonBinding) :
    ¬ Populated b ↔
      GetKey b = HIDKeyboardKey_NULL ∧ GetString_ b = [] ∧ GetProgram b = none := by
  unfold Populated
  tauto

theorem writeButton_sim (L : Nat → Nat × Bool) (D : Bool) (s : Proc) (r : Row)
    (hpop : Populated r.binding) (hb : r.boff < s.mem.length)
    (hp : TakesProgram r.binding →
      r.progoff + 8 * stepCount r.binding < s.mem.length ∧ r.progoff + 792 ≤ s.mem.length)
    (hmax : s.mem.length ≤ maxInt) :
    Sim (writeButton L D s r) s.mem s.writes (rowWrites L r) := by
  unfold writeButton rowWrites
  by_cases hk : GetKey r.binding = HIDKeyboardKey_NULL
  · by_cases hs : GetString_ r.binding = []
    · cases hg : GetProgram r.binding with
      | none =>
        exfalso
        rcases hpop with h | h | h
        · exact h hk
        · exact h hs
        · exact h hg
      | some prog =>
        have hfit := hp ⟨hk, hs, by simp [hg]⟩
        simp only [stepCount, hg] at hfit
        simp only [hk, hs, hg, ne_eq, not_true_eq_false, if_false, dite_false, reduceCtorEq,
          not_false_eq_true, if_true]
        refine Sim.bind (a := [_]) (b := progWrites r.progoff (GetProgramSet (some prog)))
          (k := fun s1 => writeProgramAtOffset D s1 (some prog) r.progoff)
          (by
            simpa using writeByteAtOffset_sim D
              (DebugPrintf D "Button #%d, offset = 0x%x" s) (toByte r.key_prog) r.boff
              (by simpa using hb)) ?_
        intro s1 hm _
        have hl : s1.mem.length = s.mem.length := by rw [hm, length_setMany]
        exact writeProgramAtOffset_sim D s1 (some prog) r.progoff (by omega) (by omega)
          (by omega)
    · simp only [hk, hs, ne_eq, not_true_eq_false, if_false, not_false_eq_true, dite_true]
      simpa using writeByteAtOffset_sim D (DebugPrintf D _ s) _ _ (by simpa using hb)
  · simp only [hk, ne_eq, not_false_eq_true, if_true]
    simpa using writeByteAtOffset_sim D (DebugPrintf D _ s) _ _ (by simpa using hb)

theorem writeButton_error (L : Nat → Nat × Bool) (D : Bool) (s : Proc) (r : Row)
    (h : ¬ Populated r.binding) : writeButton L D s r = .error .invalidBindingState := by
  rw [not_populated_iff] at h
  obtain ⟨hk, hs, hg⟩ := h
  unfold writeButton
  simp [hk, hs, hg]

/-- The loop over the rows performs the stores of its rows when every row is
populated and stores inside the buffer. -/
theorem writeButtons_sim (L : Nat → Nat × Bool) (D : Bool) (rows : List Row) (s : Proc)
    (hrows : ∀ r ∈ rows, Populated r.binding ∧ r.boff < s.mem.length ∧
      (TakesProgram r.binding → r.progoff + 8 * stepCount r.binding < s.mem.length ∧
        r.progoff + 792 ≤ s.mem.length))
    (hmax : s.mem.length ≤ maxInt) :
    Sim (writeButtons L D rows s) s.mem s.writes (tableWrites L rows) := by
  induction rows generalizing s with
  | nil => exact ⟨s.out, by simp [writeButtons, tableWrites, setMany]⟩
  | cons r rest ih =>
    obtain ⟨hpop, hb, h1⟩ := hrows r (List.mem_cons_self _ _)
    rw [writeButtons, tableWrites]
    refine Sim.bind (writeButton_sim L D s r hpop hb h1 hmax) ?_
    intro s1 hm _
    have hl : s1.mem.length = s.mem.length := by rw [hm, length_setMany]
    refine ih s1 ?_ (by omega)
    intro q hq
    rw [hl]
    exact hrows q (List.mem_cons_of_mem _ hq)

theorem writeButtons_error (L : Nat → Nat × Bool) (D : Bool) (rows : List Row) (s : Proc)
    (hrows : ∀ r ∈ rows, r.boff < s.mem.length ∧
      (TakesProgram r.binding → r.progoff + 8 * stepCount r.binding < s.mem.length ∧
        r.progoff + 792 ≤ s.mem.length))
    (hmax : s.mem.length ≤ maxInt) (hbad : ∃ r ∈ rows, ¬ Populated r.binding) :
    writeButtons L D rows s = .error .invalidBindingState := by
  induction rows generalizing s with
  | nil => simp at hbad
  | cons r rest ih =>
    rw [writeButtons]
    by_cases hpop : Populated r.binding
    · obtain ⟨hb, h1⟩ := hrows r (List.mem_cons_self _ _)
      obtain ⟨o, e⟩ := writeButton_sim L D s r hpop hb h1 hmax
      rw [e]
      show writeButtons L D rest _ = _
      refine ih _ ?_ (by simpa using hmax) ?_
      · intro q hq
        simpa using hrows q (List.mem_cons_of_mem _ hq)
      · obtain ⟨q, hq, hqn⟩ := hbad
        rcases List.mem_cons.mp hq with rfl | hq
        · exact absurd hpop hqn
        · exact ⟨q, hq, hqn⟩
    · rw [writeButton_error L D s r hpop]
      rfl

/-! ## The table of buttons -/

theorem mem_tableWrites (L : Nat → Nat × Bool) (rows : List Row) (p : Nat × Nat) :
    p ∈ tableWrites L rows ↔ ∃ r ∈ rows, p ∈ rowWrites L r := by
  induction rows with
  | nil => simp [tableWrites]
  | cons r rest ih => simp [tableWrites, ih]

/-- A row stores at its button offset and, on the program branch with at most
99 steps, inside its own region of 800 bytes. -/
theorem rowWrites_fst_cases (L : Nat → Nat × Bool) (r : Row) (idx : Nat)
    (hn : TakesProgram r.binding → stepCount r.binding ≤ 99)
    (h : idx ∈ (rowWrites L r).map Prod.fst) :
    idx = r.boff ∨ (TakesProgram r.binding ∧ r.progoff ≤ idx ∧ idx < r.progoff + 800) := by
  unfold rowWrites at h
  by_cases hk : GetKey r.binding = HIDKeyboardKey_NULL
  · by_cases hs : GetString_ r.binding = []
    · by_cases hg : GetProgram r.binding = none
      · simp [hk, hs, hg] at h
      · simp only [hk, hs, hg, ne_eq, not_true_eq_false, if_false, dite_false,
          not_false_eq_true, if_true, List.map_cons, List.mem_cons] at h
        rcases h with h | h
        · exact Or.inl h
        · right
          rw [mem_progWrites_fst] at h
          have hn := hn ⟨hk, hs, hg⟩
          unfold stepCount at hn
          unfold stopIndex at h
          exact ⟨⟨hk, hs, hg⟩, by omega, by omega⟩
    · simp [hk, hs] at h
      exact Or.inl h
  · simp [hk] at h
    exact Or.inl h

theorem rowWrites_nodup (L : Nat → Nat × Bool) (r : Row) (h : r.boff < r.progoff) :
    ((rowWrites L r).map Prod.fst).Nodup := by
  unfold rowWrites
  split
  · simp
  · split
    · simp
    · split
      · rw [List.map_cons, List.nodup_cons]
        refine ⟨?_, progWrites_nodup _ _⟩
        rw [mem_progWrites_fst]
        have := stopIndex_ge r.progoff (GetProgramSet (GetProgram r.binding))
        omega
      · simp

theorem tableWrites_nodup (L : Nat → Nat × Bool) (rows : List Row)
    (hsep : rows.Pairwise Separated)
    (hrow : ∀ r ∈ rows, r.boff < r.progoff ∧
      (TakesProgram r.binding → stepCount r.binding ≤ 99)) :
    ((tableWrites L rows).map Prod.fst).Nodup := by
  induction rows with
  | nil => simp [tableWrites]
  | cons r rest ih =>
    rw [List.pairwise_cons] at hsep
    obtain ⟨hr, hn⟩ := hrow r (List.mem_cons_self _ _)
    rw [tableWrites, List.map_append]
    refine List.Nodup.append (rowWrites_nodup L r hr)
      (ih hsep.2 (fun q hq => hrow q (List.mem_cons_of_mem _ hq))) ?_
    intro idx h1 h2
    rw [List.mem_map] at h2
    obtain ⟨p, hp, rfl⟩ := h2
    rw [mem_tableWrites] at hp
    obtain ⟨q, hq, hpq⟩ := hp
    obtain ⟨hq1, hqn⟩ := hrow q (List.mem_cons_of_mem _ hq)
    obtain ⟨s1, s2, s3, s4⟩ := hsep.1 q hq
    have c1 := rowWrites_fst_cases L r p.1 hn h1
    have c2 := rowWrites_fst_cases L q p.1 hqn (List.mem_map.mpr ⟨p, hpq, rfl⟩)
    omega

theorem bs_separated (bindings : ButtonBindings) : (bs bindings).Pairwise Separated := by
  simp [bs, Separated, loc_b1, loc_b2, loc_b3, loc_b4, loc_b5, loc_b6, loc_b7, loc_b8,
    loc_prog1, loc_prog2, loc_prog3, loc_prog4, loc_prog5, loc_prog6, loc_prog7, loc_prog8]

theorem bs_bounds (bindings : ButtonBindings) (r : Row) (h : r ∈ bs bindings) :
    r.boff < r.progoff ∧ r.progoff + 800 ≤ 27804 := by
  simp only [bs, List.mem_cons, List.mem_singleton, List.not_mem_nil, or_false] at h
  rcases h with rfl | rfl | rfl | rfl | rfl | rfl | rfl | rfl <;>
    simp [loc_b1, loc_b2, loc_b3, loc_b4, loc_b5, loc_b6, loc_b7, loc_b8,
      loc_prog1, loc_prog2, loc_prog3, loc_prog4, loc_prog5, loc_prog6, loc_prog7, loc_prog8]

theorem writeFirmware_ok (L : Nat → Nat × Bool) (D : Bool) (s : Proc)
    (bindings : ButtonBindings) (hlen : 27804 ≤ s.mem.length) (hmax : s.mem.length ≤ maxInt)
    (hpop : ∀ r ∈ bs bindings, Populated r.binding)
    (hsteps : ∀ r ∈ bs bindings, TakesProgram r.binding → stepCount r.binding ≤ 99) :
    ∃ s2, writeFirmware L D s bindings = .ok s2 ∧
      s2.mem = setMany s.mem (tableWrites L (bs bindings)) ∧
      s2.writes = s.writes ++ (tableWrites L (bs bindings)).map Prod.fst := by
  obtain ⟨o, h⟩ := writeButtons_sim L D (bs bindings) s (by
    intro r hr
    obtain ⟨h1, h2⟩ := bs_bounds bindings r hr
    refine ⟨hpop r hr, by omega, fun ht => ?_⟩
    have := hsteps r hr ht
    omega) hmax
  exact ⟨_, h, rfl, rfl⟩

/-- After the loop over the buttons, a byte stored by a row is in the buffer:
no other row stores to the same index. -/
theorem getElem?_table_of_mem (L : Nat → Nat × Bool) (bindings : ButtonBindings)
    (m : List Nat) (r : Row) (idx v : Nat)
    (hn : ∀ q ∈ bs bindings, TakesProgram q.binding → stepCount q.binding ≤ 99)
    (hr : r ∈ bs bindings) (hp : (idx, v) ∈ rowWrites L r) (hlt : idx < m.length) :
    (setMany m (tableWrites L (bs bindings)))[idx]? = some v := by
  refine getElem?_setMany_of_mem _ _ _ _
    (tableWrites_nodup L _ (bs_separated bindings)
      (fun q hq => ⟨(bs_bounds bindings q hq).1, hn q hq⟩)) ?_ hlt
  rw [mem_tableWrites]
  exact ⟨r, hr, hp⟩

/-- Frame of the loop over the buttons. -/
theorem getElem?_table_frame (L : Nat → Nat × Bool) (bindings : ButtonBindings)
    (m : List Nat) (idx : Nat)
    (hn : ∀ q ∈ bs bindings, TakesProgram q.binding → stepCount q.binding ≤ 99)
    (hb : ∀ r ∈ bs bindings, idx ≠ r.boff)
    (hp : ∀ r ∈ bs bindings, TakesProgram r.binding →
      ¬ (r.progoff ≤ idx ∧ idx < r.progoff + 800)) :
    (setMany m (tableWrites L (bs bindings)))[idx]? = m[idx]? := by
  refine getElem?_setMany_of_not_mem _ _ _ ?_
  intro p hpm hpi
  rw [mem_tableWrites] at hpm
  obtain ⟨r, hr, hpr⟩ := hpm
  rcases rowWrites_fst_cases L r p.1 (hn r hr) (List.mem_map.mpr ⟨p, hpr, rfl⟩) with h | h
  · exact hb r hr (hpi ▸ h)
  · exact hp r hr h.1 (hpi ▸ h.2)

theorem mem_rowWrites_key (L : Nat → Nat × Bool) (r : Row)
    (h : GetKey r.binding ≠ HIDKeyboardKey_NULL) :
    (r.boff, toByte (GetKey r.binding)) ∈ rowWrites L r := by
  simp [rowWrites, h]

theorem mem_rowWrites_sentinel (L : Nat → Nat × Bool) (r : Row) (h : TakesProgram r.binding) :
    (r.boff, toByte r.key_prog) ∈ rowWrites L r := by
  obtain ⟨hk, hs, hg⟩ := h
  simp [rowWrites, hk, hs, hg]

theorem mem_rowWrites_prog (L : Nat → Nat × Bool) (r : Row) (p : Nat × Nat)
    (h : TakesProgram r.binding)
    (hp : p ∈ progWrites r.progoff (GetProgramSet (GetProgram r.binding))) :
    p ∈ rowWrites L r := by
  obtain ⟨hk, hs, hg⟩ := h
  simp [rowWrites, hk, hs, hg, hp]

/-- Row `k` (1 to 8) of the table: its button offset and its program sentinel. -/
theorem bs_row (bindings : ButtonBindings) (k : Nat) (r : Row)
    (hr : (bs bindings)[k - 1]? = some r) :
    r ∈ bs bindings ∧
    r.boff = [0x5189, 0x5181, 0x5179, 0x5149, 0x518a, 0x5182, 0x517a, 0x514a].getD (k - 1) 0 ∧
    r.progoff =
      [0x539c, 0x56bc, 0x59dc, 0x5cfc, 0x601c, 0x633c, 0x665c, 0x697c].getD (k - 1) 0 ∧
    r.key_prog = 0xd7 + (k - 1) := by
  refine ⟨List.getElem?_mem hr, ?_⟩
  obtain ⟨hlt, rfl⟩ := List.getElem?_eq_some.mp hr
  have hlt8 : k - 1 < 8 := hlt
  generalize k - 1 = j at hlt hlt8 ⊢
  interval_cases j <;> exact ⟨rfl, rfl, rfl⟩

/-! ## Buttons in the firmware image -/

/-- C4: in an image of at least 27804 bytes, with every button populated and
every encoded program of at most 99 steps, for a button k (1 to 8, row `r` of
the table) whose key is c with 1 <= c <= 255, the buffer returned by
`writeFirmware` holds c at the button's offset, which is the k-th of 0x5189,
0x5181, 0x5179, 0x5149, 0x518a, 0x5182, 0x517a, 0x514a: no store made for
another button or for a program region has replaced it. -/
theorem direct_key_at_button_offset (L : Nat → Nat × Bool) (D : Bool) (s : Proc)
    (bindings : ButtonBindings) (k : Nat) (r : Row) (c : Nat)
    (hlen : 27804 ≤ s.mem.length) (hmax : s.mem.length ≤ maxInt)
    (hpop : ∀ q ∈ bs bindings, Populated q.binding)
    (hsteps : ∀ q ∈ bs bindings, TakesProgram q.binding → stepCount q.binding ≤ 99)
    (hr : (bs bindings)[k - 1]? = some r)
    (hkey : GetKey r.binding = c) (hc1 : 1 ≤ c) (hc2 : c ≤ 255) :
    ∃ s2, writeFirmware L D s bindings = .ok s2 ∧
      s2.mem[r.boff]? = some c ∧
      r.boff =
        [0x5189, 0x5181, 0x5179, 0x5149, 0x518a, 0x5182, 0x517a, 0x514a].getD (k - 1) 0 := by
  obtain ⟨s2, h, hm, _⟩ := writeFirmware_ok L D s bindings hlen hmax hpop hsteps
  obtain ⟨hmem, hboff, _, _⟩ := bs_row bindings k r hr
  refine ⟨s2, h, ?_, hboff⟩
  have hb := bs_bounds bindings r hmem
  have hne : GetKey r.binding ≠ HIDKeyboardKey_NULL := by
    rw [hkey]
    unfold HIDKeyboardKey_NULL
    omega
  have hpair := mem_rowWrites_key L r hne
  rw [hkey, show toByte c = c from Nat.mod_eq_of_lt (by omega)] at hpair
  rw [hm]
  exact getElem?_table_of_mem L bindings s.mem r r.boff c hsteps hmem hpair (by omega)

theorem exampleBindings_populated : ∀ q ∈ bs exampleBindings, Populated q.binding := by
  intro q hq
  simp only [bs, List.mem_cons, List.mem_singleton, List.not_mem_nil, or_false] at hq
  rcases hq with rfl | rfl | rfl | rfl | rfl | rfl | rfl | rfl <;>
    simp [Populated, exampleBindings, GetKey, GetString_, GetProgram, HIDKeyboardKey_NULL]

theorem exampleBindings_steps :
    ∀ q ∈ bs exampleBindings, TakesProgram q.binding → stepCount q.binding ≤ 99 := by
  intro q hq
  simp only [bs, List.mem_cons, List.mem_singleton, List.not_mem_nil, or_false] at hq
  rcases hq with rfl | rfl | rfl | rfl | rfl | rfl | rfl | rfl <;>
    simp [TakesProgram, stepCount, exampleBindings, GetKey, GetString_, GetProgram,
      GetProgramSet, HIDKeyboardKey_NULL]

theorem exampleImage_length : exampleImage.mem.length = 27804 := by
  simp only [exampleImage, List.length_replicate]

/-- C4 on the example bindings: button 1, key `0x04`, is at `0x5189`. -/
theorem direct_key_at_button_offset_witness :
    ∃ s2, writeFirmware (fun c => (c, true)) true exampleImage exampleBindings = .ok s2 ∧
      s2.mem[0x5189]? = some 0x04 := by
  obtain ⟨s2, h, hb, _⟩ := direct_key_at_button_offset (fun c => (c, true)) true exampleImage
    exampleBindings 1 ⟨exampleBindings.button1, loc_b1, key_prog1, loc_prog1⟩ 0x04
    (by rw [exampleImage_length]) (by rw [exampleImage_length]; unfold maxInt; omega)
    exampleBindings_populated exampleBindings_steps rfl rfl (by omega) (by omega)
  exact ⟨s2, h, hb⟩

/-- C5: in an image of at least 27804 bytes, with every button populated and
every encoded program of at most 99 steps, for a button k (1 to 8, row `r` of
the table) bound to a program of n >= 1 steps, each of at most 6 keys, the
buffer returned by `writeFirmware` holds the button's program sentinel
0xd7 + (k - 1) at the button's offset, the eight bytes of step i at
progoff+8i .. progoff+8i+7 for every i < n, and `0xFD` at progoff+8n: the
stores made for the other buttons have not replaced them. -/
theorem program_at_button_region (L : Nat → Nat × Bool) (D : Bool) (s : Proc)
    (bindings : ButtonBindings) (k : Nat) (r : Row) (prog : Program)
    (hlen : 27804 ≤ s.mem.length) (hmax : s.mem.length ≤ maxInt)
    (hpop : ∀ q ∈ bs bindings, Populated q.binding)
    (hsteps : ∀ q ∈ bs bindings, TakesProgram q.binding → stepCount q.binding ≤ 99)
    (hr : (bs bindings)[k - 1]? = some r)
    (hkey : GetKey r.binding = HIDKeyboardKey_NULL) (hstr : GetString_ r.binding = [])
    (hprog : GetProgram r.binding = some prog)
    (hn : 1 ≤ prog.programSet.length)
    (hkeys : ∀ ps ∈ prog.programSet, ps.keys.length ≤ 6) :
    ∃ s2, writeFirmware L D s bindings = .ok s2 ∧
      s2.mem[r.boff]? = some (0xd7 + (k - 1)) ∧
      (∀ i (hi : i < prog.programSet.length),
        (s2.mem.drop (r.progoff + 8 * i)).take 8 = slotBytes (prog.programSet.get ⟨i, hi⟩)) ∧
      s2.mem[r.progoff + 8 * prog.programSet.length]? = some 0xFD ∧
      r.boff =
        [0x5189, 0x5181, 0x5179, 0x5149, 0x518a, 0x5182, 0x517a, 0x514a].getD (k - 1) 0 ∧
      r.progoff =
        [0x539c, 0x56bc, 0x59dc, 0x5cfc, 0x601c, 0x633c, 0x665c, 0x697c].getD (k - 1) 0 := by
  obtain ⟨s2, h, hm, _⟩ := writeFirmware_ok L D s bindings hlen hmax hpop hsteps
  obtain ⟨hmem, hboff, hpoff, hkp⟩ := bs_row bindings k r hr
  have hb := bs_bounds bindings r hmem
  have htp : TakesProgram r.binding := ⟨hkey, hstr, by simp [hprog]⟩
  have h99 := hsteps r hmem htp
  have hsteps_eq : GetProgramSet (GetProgram r.binding) = prog.programSet := by
    rw [hprog]
    rfl
  unfold stepCount at h99
  rw [hsteps_eq] at h99
  have hk8 : k - 1 < 8 := by
    obtain ⟨hlt, _⟩ := List.getElem?_eq_some.mp hr
    exact hlt
  refine ⟨s2, h, ?_, ?_, ?_, hboff, hpoff⟩
  · have hpair := mem_rowWrites_sentinel L r htp
    rw [show toByte r.key_prog = 0xd7 + (k - 1) by
      rw [hkp]
      exact Nat.mod_eq_of_lt (by omega)] at hpair
    rw [hm]
    exact getElem?_table_of_mem L bindings s.mem r r.boff _ hsteps hmem hpair (by omega)
  · intro i hi
    rw [← slotRow_eq_slotBytes _ (hkeys _ (List.get_mem _ _ _))]
    have := take_drop_eq s2.mem (slotRow (prog.programSet.get ⟨i, hi⟩)) (r.progoff + 8 * i)
      (by
        intro t ht
        rw [slotRow_length] at ht
        rw [hm, Nat.mul_comm 8 i]
        refine getElem?_table_of_mem L bindings s.mem r _ _ hsteps hmem ?_ (by omega)
        refine mem_rowWrites_prog L r _ htp ?_
        rw [hsteps_eq]
        unfold progWrites
        rw [List.mem_append]
        left
        simpa using stepWrites_mem r.progoff prog.programSet 0 i t hi ht)
    rwa [slotRow_length] at this
  · rw [hm, ← stopIndex_of_pos r.progoff prog.programSet hn]
    refine getElem?_table_of_mem L bindings s.mem r _ _ hsteps hmem ?_ (by
      rw [stopIndex_of_pos r.progoff prog.programSet hn]
      omega)
    refine mem_rowWrites_prog L r _ htp ?_
    rw [hsteps_eq]
    unfold progWrites
    simp

/-- C5 on the example bindings: button 1 = key `0x04`, button 2 = one step
{modifier 0, delay 10, keys [0x04, 0x05]} gives `0xd8` at `0x5181`,
[00 0A 04 05 00 00 00 00] at `0x56bc` and `0xFD` at `0x56bc + 8`. -/
theorem program_at_button_region_witness :
    ∃ s2, writeFirmware (fun c => (c, true)) true exampleImage exampleBindings = .ok s2 ∧
      s2.mem[0x5181]? = some 0xd8 ∧
      (s2.mem.drop 0x56bc).take 8 = [0x00, 0x0A, 0x04, 0x05, 0x00, 0x00, 0x00, 0x00] ∧
      s2.mem[0x56bc + 8]? = some 0xFD := by
  obtain ⟨s2, h, hb, hslots, hstop, _, _⟩ := program_at_button_region (fun c => (c, true)) true
    exampleImage exampleBindings 2 ⟨exampleBindings.button2, loc_b2, key_prog2, loc_prog2⟩
    ⟨[⟨0x00, 10, [0x04, 0x05]⟩]⟩
    (by rw [exampleImage_length]) (by rw [exampleImage_length]; unfold maxInt; omega)
    exampleBindings_populated exampleBindings_steps rfl rfl rfl rfl (by decide)
    (by decide)
  exact ⟨s2, h, hb, hslots 0 (by decide), hstop⟩

/-! ## Reach of the stores of a program -/

/-- C6: in a buffer holding the bytes the call stores to, the indices `new`
that `writeProgramAtOffset` stores to all lie in the region
[offset, offset+800) if and only if the program has at most 99 steps; nothing
is cut off, and with 100 steps the call stores `0xFD` at offset+800, the first
byte after the region. -/
theorem stores_in_region_iff (D : Bool) (s : Proc) (prog : Option Program) (offset : Nat)
    (h1 : offset + 8 * (GetProgramSet prog).length < s.mem.length)
    (h2 : offset + 792 ≤ s.mem.length) (hmax : s.mem.length ≤ maxInt) :
    ∃ s2 new, writeProgramAtOffset D s prog offset = .ok s2 ∧
      s2.writes = s.writes ++ new ∧
      ((∀ idx ∈ new, offset ≤ idx ∧ idx < offset + 800) ↔ (GetProgramSet prog).length ≤ 99) ∧
      ((GetProgramSet prog).length = 100 →
        offset + 800 ∈ new ∧ s2.mem[offset + 800]? = some 0xFD) := by
  obtain ⟨s2, h, hm, hw⟩ := writeProgramAtOffset_ok D s prog offset h1 h2 hmax
  refine ⟨s2, _, h, hw, ⟨?_, ?_⟩, ?_⟩
  · intro hall
    by_contra hgt
    have hstop := hall (stopIndex offset (GetProgramSet prog))
      (by rw [mem_progWrites_fst]; exact Or.inr (Or.inl rfl))
    unfold stopIndex at hstop
    omega
  · intro hle idx hidx
    rw [mem_progWrites_fst] at hidx
    unfold stopIndex at hidx
    omega
  · intro h100
    have hs : stopIndex offset (GetProgramSet prog) = offset + 800 := by
      unfold stopIndex
      omega
    refine ⟨?_, ?_⟩
    · rw [mem_progWrites_fst]
      exact Or.inr (Or.inl hs.symm)
    · rw [hm, ← hs]
      exact getElem?_prog_stop _ _ _ (by omega)

/-- C6 on an input: 100 steps at offset 16 in a buffer of 1000 bytes store
`0xFD` at index 816, past the region [16, 816). -/
theorem stores_in_region_iff_witness :
    ∃ s2 new, writeProgramAtOffset true ⟨List.replicate 1000 0xAA, [], []⟩
        (some ⟨List.replicate 100 ⟨0, 0, []⟩⟩) 16 = .ok s2 ∧
      s2.writes = [] ++ new ∧ 16 + 800 ∈ new ∧ s2.mem[16 + 800]? = some 0xFD := by
  obtain ⟨s2, new, h, hw, _, h100⟩ := stores_in_region_iff true
    ⟨List.replicate 1000 0xAA, [], []⟩ (some ⟨List.replicate 100 ⟨0, 0, []⟩⟩) 16
    (by simp only [List.length_replicate, GetProgramSet]; omega)
    (by simp only [List.length_replicate]; omega)
    (by simp only [List.length_replicate, maxInt]; omega)
  exact ⟨s2, new, h, hw, h100 (by simp only [List.length_replicate, GetProgramSet])⟩

/-! ## Characters and keys -/

theorem writeButton_string_eq_key (L : Nat → Nat × Bool) (D : Bool) (s : Proc)
    (boff kp poff ch c : Nat) (hL : (L ch).1 = c) (hc : c ≠ HIDKeyboardKey_NULL) :
    writeButton L D s ⟨some ⟨HIDKeyboardKey_NULL, [ch], none⟩, boff, kp, poff⟩ =
      writeButton L D s ⟨some ⟨c, [], none⟩, boff, kp, poff⟩ := by
  simp [writeButton, GetKey, GetString_, hc, hL]

/-- C7: for every button k and every byte ch that the lookup accepts and
resolves to a KeyCode c, where c is a key a Direct Key can hold (c is not
`NULL`, the value by which `writeFirmware` tells that no key is set), encoding
the bindings whose button k is the one-character string ch gives the same
result as encoding the otherwise identical bindings whose button k is the key
c: the same buffer, hence the same byte at the button's offset (and the same
fault when the call faults). -/
theorem string_same_as_key (L : Nat → Nat × Bool) (D : Bool) (s : Proc)
    (bindings : ButtonBindings) (k ch c : Nat)
    (hL : L ch = (c, true)) (hc : c ≠ HIDKeyboardKey_NULL) :
    writeFirmware L D s (setButton bindings k (some ⟨HIDKeyboardKey_NULL, [ch], none⟩)) =
      writeFirmware L D s (setButton bindings k (some ⟨c, [], none⟩)) := by
  have hL1 : (L ch).1 = c := by rw [hL]
  have e := fun (t : Proc) (boff kp poff : Nat) =>
    writeButton_string_eq_key L D t boff kp poff ch c hL1 hc
  unfold setButton
  split <;> simp only [writeFirmware, bs, writeButtons, e]

/-- C7 on an input: the byte `0x61` resolved to the key `0x04`, on
button 3 of the example bindings. -/
theorem string_same_as_key_witness :
    writeFirmware (fun _ => (0x04, true)) true exampleImage
        (setButton exampleBindings 3 (some ⟨HIDKeyboardKey_NULL, [0x61], none⟩)) =
      writeFirmware (fun _ => (0x04, true)) true exampleImage
        (setButton exampleBindings 3 (some ⟨0x04, [], none⟩)) :=
  string_same_as_key (fun _ => (0x04, true)) true exampleImage exampleBindings 3 0x61 0x04
    rfl (by decide)

/-! ## Faults -/

theorem mem_rowWrites_string (L : Nat → Nat × Bool) (r : Row)
    (hk : GetKey r.binding = HIDKeyboardKey_NULL) (hs : GetString_ r.binding ≠ []) :
    (r.boff, toByte (L ((GetString_ r.binding).head hs)).1) ∈ rowWrites L r := by
  simp [rowWrites, hk, hs]

/-- C8: in an image of at least 27804 bytes (0x697c + 800), with every encoded
program of at most 99 steps, `writeFirmware` ends in the fault of an invalid
binding if and only if one of the 8 buttons has no variant populated (key
`NULL`, empty string and no program, which is also what an absent binding
gives); when no button is so, it ends normally, so with no store out of range,
and returns a buffer of the same length. -/
theorem invalid_binding_fault_iff (L : Nat → Nat × Bool) (D : Bool) (s : Proc)
    (bindings : ButtonBindings)
    (hlen : 27804 ≤ s.mem.length) (hmax : s.mem.length ≤ maxInt)
    (hsteps : ∀ q ∈ bs bindings, TakesProgram q.binding → stepCount q.binding ≤ 99) :
    (writeFirmware L D s bindings = .error .invalidBindingState ↔
      ∃ q ∈ bs bindings, GetKey q.binding = HIDKeyboardKey_NULL ∧
        GetString_ q.binding = [] ∧ GetProgram q.binding = none) ∧
    ((¬ ∃ q ∈ bs bindings, GetKey q.binding = HIDKeyboardKey_NULL ∧
        GetString_ q.binding = [] ∧ GetProgram q.binding = none) →
      ∃ s2, writeFirmware L D s bindings = .ok s2 ∧ s2.mem.length = s.mem.length) := by
  have hgood : (¬ ∃ q ∈ bs bindings, GetKey q.binding = HIDKeyboardKey_NULL ∧
        GetString_ q.binding = [] ∧ GetProgram q.binding = none) →
      ∃ s2, writeFirmware L D s bindings = .ok s2 ∧ s2.mem.length = s.mem.length := by
    intro hno
    have hpop : ∀ q ∈ bs bindings, Populated q.binding := by
      intro q hq
      by_contra hnp
      exact hno ⟨q, hq, (not_populated_iff _).mp hnp⟩
    obtain ⟨s2, h, hm, _⟩ := writeFirmware_ok L D s bindings hlen hmax hpop hsteps
    exact ⟨s2, h, by rw [hm, length_setMany]⟩
  refine ⟨⟨?_, ?_⟩, hgood⟩
  · intro herr
    by_contra hno
    obtain ⟨s2, h, _⟩ := hgood hno
    rw [h] at herr
    cases herr
  · rintro ⟨q, hq, hbad⟩
    unfold writeFirmware
    refine writeButtons_error L D _ s ?_ hmax ⟨q, hq, (not_populated_iff _).mpr hbad⟩
    intro r hr
    have hb := bs_bounds bindings r hr
    refine ⟨by omega, fun ht => ?_⟩
    have := hsteps r hr ht
    omega

/-- C8 on the example bindings, where every button is populated. -/
theorem invalid_binding_fault_iff_witness :
    (writeFirmware (fun c => (c, true)) true exampleImage exampleBindings =
        .error .invalidBindingState ↔
      ∃ q ∈ bs exampleBindings, GetKey q.binding = HIDKeyboardKey_NULL ∧
        GetString_ q.binding = [] ∧ GetProgram q.binding = none) ∧
    ((¬ ∃ q ∈ bs exampleBindings, GetKey q.binding = HIDKeyboardKey_NULL ∧
        GetString_ q.binding = [] ∧ GetProgram q.binding = none) →
      ∃ s2, writeFirmware (fun c => (c, true)) true exampleImage exampleBindings = .ok s2 ∧
        s2.mem.length = exampleImage.mem.length) :=
  invalid_binding_fault_iff (fun c => (c, true)) true exampleImage exampleBindings
    (by rw [exampleImage_length]) (by rw [exampleImage_length]; unfold maxInt; omega)
    exampleBindings_steps

/-! ## Frame -/

/-- C9: in an image of at least 27804 bytes, with every button populated and
every encoded program of at most 99 steps, `writeFirmware` returns a buffer of
the same length in which a byte is unchanged unless its index is one of the 8
button offsets or lies in the 800-byte region of a button encoded as a program;
a button encoded as a key or as a character has its byte at its button offset
and its whole program region unchanged. -/
theorem writeFirmware_frame (L : Nat → Nat × Bool) (D : Bool) (s : Proc)
    (bindings : ButtonBindings)
    (hlen : 27804 ≤ s.mem.length) (hmax : s.mem.length ≤ maxInt)
    (hpop : ∀ q ∈ bs bindings, Populated q.binding)
    (hsteps : ∀ q ∈ bs bindings, TakesProgram q.binding → stepCount q.binding ≤ 99) :
    ∃ s2, writeFirmware L D s bindings = .ok s2 ∧
      s2.mem.length = s.mem.length ∧
      (∀ idx, (∀ q ∈ bs bindings, idx ≠ q.boff) →
        (∀ q ∈ bs bindings, TakesProgram q.binding →
          ¬ (q.progoff ≤ idx ∧ idx < q.progoff + 800)) →
        s2.mem[idx]? = s.mem[idx]?) ∧
      (∀ q ∈ bs bindings, ¬ TakesProgram q.binding →
        (∀ idx, q.progoff ≤ idx → idx < q.progoff + 800 → s2.mem[idx]? = s.mem[idx]?) ∧
        (GetKey q.binding ≠ HIDKeyboardKey_NULL →
          s2.mem[q.boff]? = some (toByte (GetKey q.binding))) ∧
        (GetKey q.binding = HIDKeyboardKey_NULL → ∀ hs : GetString_ q.binding ≠ [],
          s2.mem[q.boff]? = some (toByte (L ((GetString_ q.binding).head hs)).1))) := by
  obtain ⟨s2, h, hm, _⟩ := writeFirmware_ok L D s bindings hlen hmax hpop hsteps
  refine ⟨s2, h, by rw [hm, length_setMany], ?_, ?_⟩
  · intro idx hb hp
    rw [hm]
    exact getElem?_table_frame L bindings s.mem idx hsteps hb hp
  · intro q hq hnt
    have hqb := bs_bounds bindings q hq
    have hsep := bs_separated bindings
    refine ⟨?_, ?_, ?_⟩
    · intro idx hlo hhi
      rw [hm]
      refine getElem?_table_frame L bindings s.mem idx hsteps ?_ ?_
      · intro r hr hidx
        by_cases hrq : r = q
        · subst hrq
          omega
        · have hall : ∀ a ∈ bs bindings, ∀ b ∈ bs bindings, a.boff < b.progoff := by
            intro a ha b hb
            simp only [bs, List.mem_cons, List.mem_singleton, List.not_mem_nil, or_false]
              at ha hb
            rcases ha with rfl | rfl | rfl | rfl | rfl | rfl | rfl | rfl <;>
              rcases hb with rfl | rfl | rfl | rfl | rfl | rfl | rfl | rfl <;>
                simp [loc_b1, loc_b2, loc_b3, loc_b4, loc_b5, loc_b6, loc_b7, loc_b8,
                  loc_prog1, loc_prog2, loc_prog3, loc_prog4, loc_prog5, loc_prog6,
                  loc_prog7, loc_prog8]
          have := hall r hr q hq
          omega
      · intro r hr hrt hin
        by_cases hrq : r = q
        · subst hrq
          exact hnt hrt
        · have hdis : ∀ a ∈ bs bindings, ∀ b ∈ bs bindings, a.progoff = b.progoff ∨
              a.progoff + 800 ≤ b.progoff ∨ b.progoff + 800 ≤ a.progoff := by
            intro a ha b hb
            simp only [bs, List.mem_cons, List.mem_singleton, List.not_mem_nil, or_false]
              at ha hb
            rcases ha with rfl | rfl | rfl | rfl | rfl | rfl | rfl | rfl <;>
              rcases hb with rfl | rfl | rfl | rfl | rfl | rfl | rfl | rfl <;>
                simp [loc_prog1, loc_prog2, loc_prog3, loc_prog4, loc_prog5, loc_prog6,
                  loc_prog7, loc_prog8]
          have hsame : ∀ a ∈ bs bindings, ∀ b ∈ bs bindings, a.progoff = b.progoff →
              a = b := by
            intro a ha b hb
            simp only [bs, List.mem_cons, List.mem_singleton, List.not_mem_nil, or_false]
              at ha hb
            rcases ha with rfl | rfl | rfl | rfl | rfl | rfl | rfl | rfl <;>
              rcases hb with rfl | rfl | rfl | rfl | rfl | rfl | rfl | rfl <;>
                simp [loc_prog1, loc_prog2, loc_prog3, loc_prog4, loc_prog5, loc_prog6,
                  loc_prog7, loc_prog8]
          rcases hdis r hr q hq with h1 | h1 | h1
          · exact hrq (hsame r hr q hq h1)
          · omega
          · omega
    · intro hk
      rw [hm]
      exact getElem?_table_of_mem L bindings s.mem q q.boff _ hsteps hq
        (mem_rowWrites_key L q hk) (by omega)
    · intro hk hs
      rw [hm]
      exact getElem?_table_of_mem L bindings s.mem q q.boff _ hsteps hq
        (mem_rowWrites_string L q hk hs) (by omega)

/-- C9 on the example bindings: the image keeps its length, the byte at index 0
and the first byte of the program region of button 1, a key. -/
theorem writeFirmware_frame_witness :
    ∃ s2, writeFirmware (fun c => (c, true)) true exampleImage exampleBindings = .ok s2 ∧
      s2.mem.length = exampleImage.mem.length ∧
      s2.mem[0]? = exampleImage.mem[0]? ∧
      s2.mem[0x539c]? = exampleImage.mem[0x539c]? := by
  obtain ⟨s2, h, hl, hframe, hrows⟩ := writeFirmware_frame (fun c => (c, true)) true
    exampleImage exampleBindings
    (by rw [exampleImage_length]) (by rw [exampleImage_length]; unfold maxInt; omega)
    exampleBindings_populated exampleBindings_steps
  refine ⟨s2, h, hl, hframe 0 ?_ ?_, ?_⟩
  · intro q hq
    have := bs_bounds exampleBindings q hq
    simp only [bs, List.mem_cons, List.mem_singleton, List.not_mem_nil, or_false] at hq
    rcases hq with rfl | rfl | rfl | rfl | rfl | rfl | rfl | rfl <;>
      simp [loc_b1, loc_b2, loc_b3, loc_b4, loc_b5, loc_b6, loc_b7, loc_b8]
  · intro q hq _ hin
    have := bs_bounds exampleBindings q hq
    omega
  · refine (hrows ⟨exampleBindings.button1, loc_b1, key_prog1, loc_prog1⟩
      (by simp [bs]) ?_).1 0x539c (by simp [loc_prog1]) (by simp [loc_prog1])
    simp [TakesProgram, exampleBindings, GetKey, HIDKeyboardKey_NULL]

/-! ## The buffer does not depend on what is printed -/

theorem memOf_bind {r1 r2 : Except Fault Proc} {k1 k2 : Proc → Except Fault Proc}
    (h : memOf r1 = memOf r2)
    (hk : ∀ a b : Proc, a.mem = b.mem → memOf (k1 a) = memOf (k2 b)) :
    memOf (r1 >>= k1) = memOf (r2 >>= k2) := by
  cases r1 with
  | error e1 =>
    cases r2 with
    | error e2 =>
      have he : e1 = e2 := by simpa [memOf, Except.map] using h
      subst he
      rfl
    | ok b => simp [memOf, Except.map] at h
  | ok a =>
    cases r2 with
    | error e2 => simp [memOf, Except.map] at h
    | ok b =>
      have hab : a.mem = b.mem := by simpa [memOf, Except.map] using h
      exact hk a b hab

theorem store_memOf (s1 s2 : Proc) (b off : Nat) (h : s1.mem = s2.mem) :
    memOf (store s1 b off) = memOf (store s2 b off) := by
  unfold store
  rw [h]
  split <;> simp [memOf, Except.map]

theorem writeByteAtOffset_memOf (D1 D2 : Bool) (s1 s2 : Proc) (b off : Nat)
    (h : s1.mem = s2.mem) :
    memOf (writeByteAtOffset D1 s1 b off) = memOf (writeByteAtOffset D2 s2 b off) := by
  unfold writeByteAtOffset
  exact store_memOf _ _ b off (by simpa using h)

theorem writeKeys_memOf (D1 D2 : Bool) (keys : List Nat) (start : Nat) (js : List Nat)
    (s1 s2 : Proc) (h : s1.mem = s2.mem) :
    memOf (writeKeys D1 keys start js s1) = memOf (writeKeys D2 keys start js s2) := by
  induction js generalizing s1 s2 with
  | nil => simpa [writeKeys, memOf, Except.map] using h
  | cons j js ih =>
    rw [writeKeys, writeKeys]
    exact memOf_bind (writeByteAtOffset_memOf D1 D2 s1 s2 _ _ h) (fun a b hab => ih a b hab)

theorem writeProgramSet_memOf (D1 D2 : Bool) (offset i : Nat) (ps : ProgramSet)
    (s1 s2 : Proc) (h : s1.mem = s2.mem) :
    memOf (writeProgramSet D1 offset i ps s1) = memOf (writeProgramSet D2 offset i ps s2) := by
  unfold writeProgramSet
  refine memOf_bind (writeByteAtOffset_memOf D1 D2 _ _ _ _ (by simpa using h)) ?_
  intro a b hab
  refine memOf_bind (writeByteAtOffset_memOf D1 D2 _ _ _ _ (by simpa using hab)) ?_
  intro a2 b2 hab2
  exact writeKeys_memOf D1 D2 _ _ _ _ _ (by simpa using hab2)

theorem writeProgramSets_memOf (D1 D2 : Bool) (offset : Nat) (steps : List ProgramSet)
    (idx i : Nat) (s1 s2 : Proc) (h : s1.mem = s2.mem) :
    (writeProgramSets D1 offset steps idx i s1).map (fun p => (p.1.mem, p.2)) =
      (writeProgramSets D2 offset steps idx i s2).map (fun p => (p.1.mem, p.2)) := by
  induction steps generalizing idx i s1 s2 with
  | nil => simp [writeProgramSets, Except.map, h]
  | cons ps rest ih =>
    rw [writeProgramSets, writeProgramSets]
    have hs := writeProgramSet_memOf D1 D2 offset idx ps s1 s2 h
    cases h1 : writeProgramSet D1 offset idx ps s1 with
    | error e1 =>
      cases h2 : writeProgramSet D2 offset idx ps s2 with
      | error e2 =>
        rw [h1, h2] at hs
        simpa [memOf, Except.map, bind, Except.bind] using hs
      | ok b =>
        rw [h1, h2] at hs
        simp [memOf, Except.map] at hs
    | ok a =>
      cases h2 : writeProgramSet D2 offset idx ps s2 with
      | error e2 =>
        rw [h1, h2] at hs
        simp [memOf, Except.map] at hs
      | ok b =>
        rw [h1, h2] at hs
        have hab : a.mem = b.mem := by simpa [memOf, Except.map] using hs
        exact ih (idx + 1) idx a b hab

theorem zeroFrom_memOf (l : List Nat) (s1 s2 : Proc) (h : s1.mem = s2.mem) :
    memOf (zeroFrom l s1) = memOf (zeroFrom l s2) := by
  induction l generalizing s1 s2 with
  | nil => simpa [zeroFrom, memOf, Except.map] using h
  | cons p l ih =>
    rw [zeroFrom, zeroFrom]
    exact memOf_bind (store_memOf s1 s2 _ _ h) (fun a b hab => ih a b hab)

theorem padWithZeroes_memOf (D1 D2 : Bool) (start offset : Nat) (s1 s2 : Proc)
    (h : s1.mem = s2.mem) :
    memOf (padWithZeroes D1 start offset s1) = memOf (padWithZeroes D2 start offset s2) := by
  unfold padWithZeroes
  refine memOf_bind (zeroFrom_memOf _ _ _ (by simpa using h)) ?_
  intro a b hab
  simpa [memOf, Except.map] using hab

theorem writeProgramAtOffset_memOf (D1 D2 : Bool) (s1 s2 : Proc) (prog : Option Program)
    (offset : Nat) (h : s1.mem = s2.mem) :
    memOf (writeProgramAtOffset D1 s1 prog offset) =
      memOf (writeProgramAtOffset D2 s2 prog offset) := by
  unfold writeProgramAtOffset
  dsimp only
  have hs := writeProgramSets_memOf D1 D2 offset (GetProgramSet prog) 0 0
    (DebugPrintf D1 "writeProgramAtOffset prog=%v offset=%v" s1)
    (DebugPrintf D2 "writeProgramAtOffset prog=%v offset=%v" s2) (by simpa using h)
  cases h1 : writeProgramSets D1 offset (GetProgramSet prog) 0 0
      (DebugPrintf D1 "writeProgramAtOffset prog=%v offset=%v" s1) with
  | error e1 =>
    cases h2 : writeProgramSets D2 offset (GetProgramSet prog) 0 0
        (DebugPrintf D2 "writeProgramAtOffset prog=%v offset=%v" s2) with
    | error e2 =>
      rw [h1, h2] at hs
      have he : e1 = e2 := by simpa [Except.map] using hs
      subst he
      rfl
    | ok b =>
      rw [h1, h2] at hs
      simp [Except.map] at hs
  | ok a =>
    cases h2 : writeProgramSets D2 offset (GetProgramSet prog) 0 0
        (DebugPrintf D2 "writeProgramAtOffset prog=%v offset=%v" s2) with
    | error e2 =>
      rw [h1, h2] at hs
      simp [Except.map] at hs
    | ok b =>
      rw [h1, h2] at hs
      obtain ⟨a1, ia⟩ := a
      obtain ⟨b1, ib⟩ := b
      have hab : a1.mem = b1.mem ∧ ia = ib := by simpa [Except.map] using hs
      obtain ⟨hm, rfl⟩ := hab
      show memOf (writeByteAtOffset D1 _ _ _ >>= _) = memOf (writeByteAtOffset D2 _ _ _ >>= _)
      refine memOf_bind (writeByteAtOffset_memOf D1 D2 _ _ _ _ (by simpa using hm)) ?_
      intro a2 b2 hab2
      exact padWithZeroes_memOf D1 D2 _ _ a2 b2 hab2

theorem writeButton_memOf (L : Nat → Nat × Bool) (D1 D2 : Bool) (s1 s2 : Proc) (r : Row)
    (h : s1.mem = s2.mem) :
    memOf (writeButton L D1 s1 r) = memOf (writeButton L D2 s2 r) := by
  unfold writeButton
  by_cases hk : GetKey r.binding = HIDKeyboardKey_NULL
  · by_cases hs : GetString_ r.binding = []
    · cases hg : GetProgram r.binding with
      | none => simp [hk, hs, hg, memOf, Except.map]
      | some prog =>
        simp only [hk, hs, hg, ne_eq, not_true_eq_false, if_false, dite_false]
        refine memOf_bind (writeByteAtOffset_memOf D1 D2 _ _ _ _ (by simpa using h)) ?_
        intro a b hab
        exact writeProgramAtOffset_memOf D1 D2 a b _ _ hab
    · simp only [hk, hs, ne_eq, not_true_eq_false, if_false, not_false_eq_true, dite_true]
      exact writeByteAtOffset_memOf D1 D2 _ _ _ _ (by simpa using h)
  · simp only [hk, ne_eq, not_false_eq_true, if_true]
    exact writeByteAtOffset_memOf D1 D2 _ _ _ _ (by simpa using h)

theorem writeButtons_memOf (L : Nat → Nat × Bool) (D1 D2 : Bool) (rows : List Row)
    (s1 s2 : Proc) (h : s1.mem = s2.mem) :
    memOf (writeButtons L D1 rows s1) = memOf (writeButtons L D2 rows s2) := by
  induction rows generalizing s1 s2 with
  | nil => simpa [writeButtons, memOf, Except.map] using h
  | cons r rest ih =>
    rw [writeButtons, writeButtons]
    exact memOf_bind (writeButton_memOf L D1 D2 s1 s2 r h) (fun a b hab => ih a b hab)

/-- C10: the buffer returned by `writeFirmware`, or the fault it ends in, is
determined by the bytes of the initial buffer and the bindings (and the given
lookup): two calls on copies `m` of the same buffer give the same bytes,
whatever the DEBUG flag of each call and whatever was printed or stored
before. -/
theorem writeFirmware_buffer_deterministic (L : Nat → Nat × Bool)
    (bindings : ButtonBindings) (m : List Nat) (D1 D2 : Bool) (o1 o2 : List String)
    (w1 w2 : List Nat) :
    memOf (writeFirmware L D1 ⟨m, o1, w1⟩ bindings) =
      memOf (writeFirmware L D2 ⟨m, o2, w2⟩ bindings) :=
  writeButtons_memOf L D1 D2 (bs bindings) ⟨m, o1, w1⟩ ⟨m, o2, w2⟩ rfl

/-! ## Layout -/

/-- C13: the layout constants do not overlap. The table of `writeFirmware` lists
the button offsets `loc_b1 .. loc_b8` and the program bases `loc_prog1 ..
loc_prog8` in button order; the 8 button offsets are pairwise distinct; each
program base is the previous one plus 800, so the regions [base, base+800) are
contiguous and pairwise disjoint; and every button offset is below `loc_prog1`,
hence in no program region. -/
theorem layout_constants_disjoint (bindings : ButtonBindings) :
    (bs bindings).map Row.boff =
      [loc_b1, loc_b2, loc_b3, loc_b4, loc_b5, loc_b6, loc_b7, loc_b8] ∧
    (bs bindings).map Row.progoff =
      [loc_prog1, loc_prog2, loc_prog3, loc_prog4, loc_prog5, loc_prog6, loc_prog7,
        loc_prog8] ∧
    [loc_b1, loc_b2, loc_b3, loc_b4, loc_b5, loc_b6, loc_b7, loc_b8].Nodup ∧
    (loc_prog2 = loc_prog1 + 800 ∧ loc_prog3 = loc_prog2 + 800 ∧
      loc_prog4 = loc_prog3 + 800 ∧ loc_prog5 = loc_prog4 + 800 ∧
      loc_prog6 = loc_prog5 + 800 ∧ loc_prog7 = loc_prog6 + 800 ∧
      loc_prog8 = loc_prog7 + 800) ∧
    [loc_prog1, loc_prog2, loc_prog3, loc_prog4, loc_prog5, loc_prog6, loc_prog7,
      loc_prog8].Pairwise (fun p q => p + 800 ≤ q) ∧
    (∀ b ∈ [loc_b1, loc_b2, loc_b3, loc_b4, loc_b5, loc_b6, loc_b7, loc_b8],
      b < loc_prog1) := by
  refine ⟨rfl, rfl, by decide, by decide, by decide, by decide⟩

/-! ## The empty program -/

/-- C14: for a program with no step, in a buffer holding offset .. offset+791,
`writeProgramAtOffset` leaves the bytes offset .. offset+7 (slot 0) as they
were, so the stop sentinel is not put at the first byte of the region; it
stores `0xFD` at offset+8 (slot 1) and `0x00` at offset+9 .. offset+791. -/
theorem empty_program_keeps_slot_zero (D : Bool) (s : Proc) (prog : Option Program)
    (offset : Nat) (hn : GetProgramSet prog = [])
    (h2 : offset + 792 ≤ s.mem.length) (hmax : s.mem.length ≤ maxInt) :
    ∃ s2, writeProgramAtOffset D s prog offset = .ok s2 ∧
      (∀ idx, offset ≤ idx → idx ≤ offset + 7 → s2.mem[idx]? = s.mem[idx]?) ∧
      s2.mem[offset + 8]? = some 0xFD ∧
      (∀ idx, offset + 9 ≤ idx → idx ≤ offset + 791 → s2.mem[idx]? = some 0x00) ∧
      s2.writes = s.writes ++ List.range' (offset + 8) 784 := by
  obtain ⟨s2, h, hm, hw⟩ := writeProgramAtOffset_ok D s prog offset
    (by rw [hn]; simp only [List.length_nil]; omega) h2 hmax
  have hs : stopIndex offset (GetProgramSet prog) = offset + 8 := by
    rw [hn]
    rfl
  refine ⟨s2, h, ?_, ?_, ?_, ?_⟩
  · intro idx hlo hhi
    rw [hm, getElem?_prog_frame]
    rw [mem_progWrites_fst, hs, hn]
    simp only [List.length_nil]
    omega
  · rw [hm, ← hs]
    exact getElem?_prog_stop _ _ _ (by omega)
  · intro idx hlo hhi
    rw [hm]
    exact getElem?_prog_zero _ _ _ _ (by omega) (by omega) (by omega)
  · rw [hw, progWrites_fst, hs, hn]
    simp only [List.length_nil, Nat.mul_zero, List.range'_zero, List.nil_append]
    congr 2
    omega

/-- C14 on an input: the absent program at offset 16 of a buffer of 900 bytes
`0xAA`. -/
theorem empty_program_keeps_slot_zero_witness :
    ∃ s2, writeProgramAtOffset true ⟨List.replicate 900 0xAA, [], []⟩ none 16 = .ok s2 ∧
      (∀ idx, 16 ≤ idx → idx ≤ 16 + 7 →
        s2.mem[idx]? = (List.replicate 900 0xAA)[idx]?) ∧
      s2.mem[16 + 8]? = some 0xFD ∧
      (∀ idx, 16 + 9 ≤ idx → idx ≤ 16 + 791 → s2.mem[idx]? = some 0x00) ∧
      s2.writes = [] ++ List.range' (16 + 8) 784 :=
  empty_program_keeps_slot_zero true ⟨List.replicate 900 0xAA, [], []⟩ none 16 rfl
    (by simp only [List.length_replicate]; omega)
    (by simp only [List.length_replicate, maxInt]; omega)

/-! ## The zero-fill loop -/

theorem mem_padWrites (start limit : Nat) (p : Nat × Nat) :
    p ∈ padWrites start limit ↔ (start ≤ p.1 ∧ p.1 < limit) ∧ p.2 = 0 := by
  unfold padWrites
  rw [List.mem_map]
  constructor
  · rintro ⟨q, hq, rfl⟩
    rw [List.mem_range'_1] at hq
    exact ⟨by simp only; omega, rfl⟩
  · rintro ⟨h, h0⟩
    refine ⟨p.1, by rw [List.mem_range'_1]; omega, ?_⟩
    rw [← h0]

theorem padWrites_fst (start limit : Nat) :
    (padWrites start limit).map Prod.fst = List.range' start (limit - start) := by
  unfold padWrites
  rw [List.map_map]
  have hid : (Prod.fst ∘ fun p : Nat => (p, 0)) = id := rfl
  rw [hid, List.map_id]

/-- C12, counterexample: the program without steps encoded at offset 0 over a
region filled with `0xAA` leaves `0xAA` at index 1 and puts `0xFD` at index 8,
so the bytes offset+8n+1 .. offset+791 are not all zero for n = 0. -/
theorem zero_fill_of_empty_program_starts_at_nine :
    ∃ s2, writeProgramAtOffset false ⟨List.replicate 800 0xAA, [], []⟩ (some ⟨[]⟩) 0 =
        .ok s2 ∧ s2.mem[1]? = some 0xAA ∧ s2.mem[8]? = some 0xFD := by
  obtain ⟨s2, h, hm, _⟩ := writeProgramAtOffset_ok false ⟨List.replicate 800 0xAA, [], []⟩
    (some ⟨[]⟩) 0
    (by simp only [List.length_replicate, GetProgramSet, List.length_nil]; omega)
    (by simp only [List.length_replicate]; omega)
    (by simp only [List.length_replicate, maxInt]; omega)
  refine ⟨s2, h, ?_, ?_⟩
  · rw [hm, getElem?_prog_frame]
    · simp only [List.getElem?_replicate]
      rw [if_pos (by omega)]
    · rw [mem_progWrites_fst]
      simp [GetProgramSet, stopIndex]
  · rw [hm]
    exact getElem?_prog_stop _ 0 (GetProgramSet (some ⟨[]⟩))
      (by simp only [List.length_replicate, GetProgramSet, stopIndex, List.length_nil]; omega)

/-- C12, amended: in a buffer holding offset .. offset+791,
`padWithZeroes(start, offset, w)` stores `0x00` at exactly the indices
start <= p < offset+792, in increasing order, and changes no other byte (none at
all when start >= offset+792); hence for a program of n steps with
1 <= n <= 98 `writeProgramAtOffset` leaves `0x00` at offset+8n+1 .. offset+791
and leaves the 8 bytes offset+792 .. offset+799 as they were before the call. -/
theorem zero_fill_exact (D : Bool) (s : Proc) (start offset : Nat) (prog : Option Program)
    (h2 : offset + 792 ≤ s.mem.length) (hmax : s.mem.length ≤ maxInt) :
    (∃ s2, padWithZeroes D start offset s = .ok s2 ∧
      s2.mem.length = s.mem.length ∧
      s2.writes = s.writes ++ List.range' start (offset + 792 - start) ∧
      (∀ idx, s2.mem[idx]? =
        if start ≤ idx ∧ idx < offset + 792 then some 0x00 else s.mem[idx]?) ∧
      (offset + 792 ≤ start → s2.mem = s.mem)) ∧
    (1 ≤ (GetProgramSet prog).length → (GetProgramSet prog).length ≤ 98 →
      ∃ s2, writeProgramAtOffset D s prog offset = .ok s2 ∧
        (∀ idx, offset + 8 * (GetProgramSet prog).length + 1 ≤ idx → idx ≤ offset + 791 →
          s2.mem[idx]? = some 0x00) ∧
        (∀ idx, offset + 792 ≤ idx → idx ≤ offset + 799 → s2.mem[idx]? = s.mem[idx]?)) := by
  constructor
  · obtain ⟨o, h⟩ := padWithZeroes_sim D start offset s (by omega) (fun _ => h2)
    refine ⟨_, h, by simp only [length_setMany], by simp only [padWrites_fst], ?_, ?_⟩
    · intro idx
      simp only
      split
      · next hin =>
        refine getElem?_setMany_of_mem _ _ idx 0 ?_ ?_ (by omega)
        · rw [padWrites_fst]
          exact List.nodup_range' _ _
        · rw [mem_padWrites]
          exact ⟨hin, rfl⟩
      · next hout =>
        refine getElem?_setMany_of_not_mem _ _ _ ?_
        intro p hp hpi
        rw [mem_padWrites] at hp
        exact hout (hpi ▸ hp.1)
    · intro hge
      simp only [padWrites, show offset + 792 - start = 0 by omega, List.range'_zero,
        List.map_nil, setMany]
  · intro hn1 hn98
    obtain ⟨s2, h, hm, _⟩ := writeProgramAtOffset_ok D s prog offset (by omega) h2 hmax
    have hs := stopIndex_of_pos offset _ hn1
    refine ⟨s2, h, ?_, ?_⟩
    · intro idx hlo hhi
      rw [hm]
      exact getElem?_prog_zero _ _ _ _ (by omega) (by omega) (by omega)
    · intro idx hlo hhi
      rw [hm, getElem?_prog_frame]
      rw [mem_progWrites_fst]
      omega

/-- C12, amended, on an input: the fill from index 40 for a region at offset 16
of a buffer of 900 bytes, and a program of one step there. -/
theorem zero_fill_exact_witness :
    (∃ s2, padWithZeroes true 40 16 ⟨List.replicate 900 0xAA, [], []⟩ = .ok s2 ∧
      s2.mem.length = (List.replicate 900 0xAA).length ∧
      s2.writes = [] ++ List.range' 40 (16 + 792 - 40) ∧
      (∀ idx, s2.mem[idx]? =
        if 40 ≤ idx ∧ idx < 16 + 792 then some 0x00 else (List.replicate 900 0xAA)[idx]?) ∧
      (16 + 792 ≤ 40 → s2.mem = List.replicate 900 0xAA)) ∧
    (1 ≤ (GetProgramSet (some ⟨[⟨0, 10, [4, 5]⟩]⟩)).length →
      (GetProgramSet (some ⟨[⟨0, 10, [4, 5]⟩]⟩)).length ≤ 98 →
      ∃ s2, writeProgramAtOffset true ⟨List.replicate 900 0xAA, [], []⟩
          (some ⟨[⟨0, 10, [4, 5]⟩]⟩) 16 = .ok s2 ∧
        (∀ idx, 16 + 8 * (GetProgramSet (some ⟨[⟨0, 10, [4, 5]⟩]⟩)).length + 1 ≤ idx →
          idx ≤ 16 + 791 → s2.mem[idx]? = some 0x00) ∧
        (∀ idx, 16 + 792 ≤ idx → idx ≤ 16 + 799 →
          s2.mem[idx]? = (List.replicate 900 0xAA)[idx]?)) :=
  zero_fill_exact true ⟨List.replicate 900 0xAA, [], []⟩ 40 16 (some ⟨[⟨0, 10, [4, 5]⟩]⟩)
    (by simp only [List.length_replicate]; omega)
    (by simp only [List.length_replicate, maxInt]; omega)

/-! ## One byte per value -/

theorem writeKeys_congr (D : Bool) (keys1 keys2 : List Nat) (start : Nat) (js : List Nat)
    (s : Proc)
    (h : ∀ j ∈ js, (if h : j < keys1.length then keys1[j] else 0) =
      (if h : j < keys2.length then keys2[j] else 0)) :
    writeKeys D keys1 start js s = writeKeys D keys2 start js s := by
  induction js generalizing s with
  | nil => rfl
  | cons j js ih =>
    rw [writeKeys, writeKeys, h j (List.mem_cons_self _ _)]
    congr 1
    funext s1
    exact ih s1 (fun i hi => h i (List.mem_cons_of_mem _ hi))

/-- The loop over the steps gives the same result when one step is replaced by
a step for which the loop body gives the same result. -/
theorem writeProgramSets_congr (D : Bool) (offset : Nat) (x y : ProgramSet)
    (hxy : ∀ i s, writeProgramSet D offset i x s = writeProgramSet D offset i y s)
    (pre post : List ProgramSet) (idx i : Nat) (s : Proc) :
    writeProgramSets D offset (pre ++ x :: post) idx i s =
      writeProgramSets D offset (pre ++ y :: post) idx i s := by
  induction pre generalizing idx i s with
  | nil =>
    simp only [List.nil_append, writeProgramSets, hxy]
  | cons p pre ih =>
    simp only [List.cons_append, writeProgramSets]
    congr 1
    funext s1
    exact ih (idx + 1) idx s1

theorem writeProgramAtOffset_congr (D : Bool) (offset : Nat) (x y : ProgramSet)
    (hxy : ∀ i s, writeProgramSet D offset i x s = writeProgramSet D offset i y s)
    (pre post : List ProgramSet) (s : Proc) :
    writeProgramAtOffset D s (some ⟨pre ++ x :: post⟩) offset =
      writeProgramAtOffset D s (some ⟨pre ++ y :: post⟩) offset := by
  unfold writeProgramAtOffset
  simp only [GetProgramSet, writeProgramSets_congr D offset x y hxy]

theorem slotRow_getD_key (ps : ProgramSet) (j : Nat) (hj : j < 6) :
    (slotRow ps).getD (2 + j) 0 = ps.keys.getD j 0 % 256 := by
  have e : ∀ i, (if h : i < ps.keys.length then ps.keys[i] else 0) = ps.keys.getD i 0 := by
    intro i
    split
    · next h => simp [List.getD, List.getElem?_eq_getElem h]
    · next h => simp [List.getD, List.getElem?_eq_none (Nat.le_of_not_lt h)]
  interval_cases j <;>
    simp [slotRow, List.range, List.range.loop, e, toByte]

/-- C11: in a buffer holding the bytes the call stores to, after
`writeProgramAtOffset` the slot of step i holds, each in its own byte, the
modifier mod 256 at byte 0, the delay mod 256 at byte 1 and, at byte 2+j for
j < 6, the j-th key mod 256 (`0x00` when the step has no j-th key): no value
reaches a neighbouring byte. A step with delay d and the same step with delay
d + 256 give the same result of the call, whatever the buffer. -/
theorem fields_truncated_to_byte (D : Bool) (s : Proc) (prog : Option Program)
    (offset i : Nat) (hi : i < (GetProgramSet prog).length)
    (h1 : offset + 8 * (GetProgramSet prog).length < s.mem.length)
    (h2 : offset + 792 ≤ s.mem.length) (hmax : s.mem.length ≤ maxInt) :
    (∃ s2, writeProgramAtOffset D s prog offset = .ok s2 ∧
      s2.mem[offset + 8 * i]? = some (((GetProgramSet prog).get ⟨i, hi⟩).modifier % 256) ∧
      s2.mem[offset + 8 * i + 1]? =
        some (((GetProgramSet prog).get ⟨i, hi⟩).millisecondsBetweenKeys % 256) ∧
      (∀ j, j < 6 → s2.mem[offset + 8 * i + 2 + j]? =
        some (((GetProgramSet prog).get ⟨i, hi⟩).keys.getD j 0 % 256))) ∧
    (∀ (t : Proc) (pre post : List ProgramSet) (m d : Nat) (keys : List Nat),
      writeProgramAtOffset D t (some ⟨pre ++ ⟨m, d, keys⟩ :: post⟩) offset =
        writeProgramAtOffset D t (some ⟨pre ++ ⟨m, d + 256, keys⟩ :: post⟩) offset) := by
  constructor
  · obtain ⟨s2, h, hm, _⟩ := writeProgramAtOffset_ok D s prog offset h1 h2 hmax
    have hstep := fun (t : Nat) (ht : t < 8) =>
      getElem?_prog_step s.mem offset (GetProgramSet prog) i t hi ht (by omega)
    refine ⟨s2, h, ?_, ?_, ?_⟩
    · have := hstep 0 (by omega)
      rw [hm, Nat.mul_comm 8 i]
      simpa [slotRow, toByte] using this
    · have := hstep 1 (by omega)
      rw [hm, Nat.mul_comm 8 i]
      simpa [slotRow, toByte] using this
    · intro j hj
      have := hstep (2 + j) (by omega)
      rw [slotRow_getD_key _ j hj] at this
      rw [hm, Nat.mul_comm 8 i, Nat.add_assoc]
      exact this
  · intro t pre post m d keys
    refine writeProgramAtOffset_congr D offset _ _ ?_ pre post t
    intro k u
    have e : toByte (d + 256) = toByte d := by
      unfold toByte
      omega
    simp only [writeProgramSet, e]

/-- C11 on an input: modifier `0x1FF`, delay 266 and the key `0x104` are stored
as `0xFF`, `0x0A` and `0x04`. -/
theorem fields_truncated_to_byte_witness :
    ∃ s2, writeProgramAtOffset true ⟨List.replicate 900 0xAA, [], []⟩
        (some ⟨[⟨0x1FF, 266, [0x104]⟩]⟩) 16 = .ok s2 ∧
      s2.mem[16 + 8 * 0]? = some 0xFF ∧
      s2.mem[16 + 8 * 0 + 1]? = some 0x0A ∧
      s2.mem[16 + 8 * 0 + 2 + 0]? = some 0x04 := by
  obtain ⟨⟨s2, h, hmod, hdelay, hkeys⟩, _⟩ := fields_truncated_to_byte true
    ⟨List.replicate 900 0xAA, [], []⟩ (some ⟨[⟨0x1FF, 266, [0x104]⟩]⟩) 16 0
    (by simp only [GetProgramSet, List.length_cons, List.length_nil]; omega)
    (by simp only [List.length_replicate, GetProgramSet, List.length_cons, List.length_nil]; omega)
    (by simp only [List.length_replicate]; omega)
    (by simp only [List.length_replicate, maxInt]; omega)
  exact ⟨s2, h, hmod, hdelay, hkeys 0 (by omega)⟩

/-! ## More than six keys -/

theorem keyAt_eq_getD (keys : List Nat) (j : Nat) :
    (if h : j < keys.length then keys[j] else 0) = keys[j]?.getD 0 := by
  split
  · next h => simp [List.getElem?_eq_getElem h]
  · next h => simp [List.getElem?_eq_none (Nat.le_of_not_lt h)]

theorem writeProgramSet_cutKeys (D : Bool) (offset i : Nat) (ps : ProgramSet) (s : Proc) :
    writeProgramSet D offset i ps s = writeProgramSet D offset i (cutKeys ps) s := by
  unfold writeProgramSet cutKeys
  simp only
  congr 1
  funext s1
  congr 1
  funext s2
  refine writeKeys_congr D _ _ _ _ _ ?_
  intro j hj
  rw [List.mem_range] at hj
  rw [keyAt_eq_getD, keyAt_eq_getD, List.getElem?_take_of_lt hj]

/-- C15: a step `ps` with more than 6 keys, at index i of a program, is encoded
like the step with its key list cut to its first 6 keys: the two calls of
`writeProgramAtOffset` give the same result, whatever the buffer. In a buffer
holding the step's slot, the loop body for the step stores to the 8 indices
offset+8i .. offset+8i+7 only, so to no byte of the following slot, puts the
first 6 keys (through `byte`) at bytes 2 .. 7 of the slot and leaves every byte
outside the slot as it was. -/
theorem keys_beyond_six_dropped (D : Bool) (s : Proc) (offset i : Nat) (ps : ProgramSet)
    (hk : 6 < ps.keys.length)
    (hlen : offset + i * 8 + 8 ≤ s.mem.length) (hmax : s.mem.length ≤ maxInt) :
    (∀ (t : Proc) (pre post : List ProgramSet),
      writeProgramAtOffset D t (some ⟨pre ++ ps :: post⟩) offset =
        writeProgramAtOffset D t (some ⟨pre ++ cutKeys ps :: post⟩) offset) ∧
    (∃ s2, writeProgramSet D offset i ps s = .ok s2 ∧
      s2.writes = s.writes ++ List.range' (offset + i * 8) 8 ∧
      (s2.mem.drop (offset + i * 8 + 2)).take 6 = (ps.keys.take 6).map toByte ∧
      (∀ idx, ¬ (offset + i * 8 ≤ idx ∧ idx < offset + i * 8 + 8) →
        s2.mem[idx]? = s.mem[idx]?)) := by
  constructor
  · intro t pre post
    exact writeProgramAtOffset_congr D offset ps (cutKeys ps)
      (fun k u => writeProgramSet_cutKeys D offset k ps u) pre post t
  · obtain ⟨o, h⟩ := writeProgramSet_sim D offset i ps s hlen hmax
    have hnd : ((slotWrites ps (offset + i * 8)).map Prod.fst).Nodup := by
      rw [slotWrites_fst]
      exact List.nodup_range' _ _
    refine ⟨_, h, by simp only [slotWrites_fst], ?_, ?_⟩
    · have hl : ((ps.keys.take 6).map toByte).length = 6 := by
        rw [List.length_map, List.length_take]
        omega
      have := take_drop_eq (setMany s.mem (slotWrites ps (offset + i * 8)))
        ((ps.keys.take 6).map toByte) (offset + i * 8 + 2)
        (by
          intro t ht
          rw [hl] at ht
          have hmem := slotWrites_mem ps (offset + i * 8) (2 + t) (by omega)
          rw [slotRow_getD_key ps t ht] at hmem
          have hget : ((ps.keys.take 6).map toByte).getD t 0 = ps.keys.getD t 0 % 256 := by
            simp [List.getD, List.getElem?_map, List.getElem?_take_of_lt ht, toByte,
              List.getElem?_eq_getElem (show t < ps.keys.length by omega)]
          rw [hget, Nat.add_assoc]
          exact getElem?_setMany_of_mem _ _ _ _ hnd hmem (by omega))
      rwa [hl] at this
    · intro idx hout
      refine getElem?_setMany_of_not_mem _ _ _ ?_
      intro p hp hpi
      have : p.1 ∈ (slotWrites ps (offset + i * 8)).map Prod.fst :=
        List.mem_map.mpr ⟨p, hp, rfl⟩
      rw [slotWrites_fst, List.mem_range'_1] at this
      omega

/-- C15 on an input: a step with 8 keys at index 1 of a program at offset 16;
the keys 7 and 8 are not stored. -/
theorem keys_beyond_six_dropped_witness :
    ∃ s2, writeProgramSet true 16 1 ⟨0, 10, [1, 2, 3, 4, 5, 6, 7, 8]⟩
        ⟨List.replicate 900 0xAA, [], []⟩ = .ok s2 ∧
      s2.writes = [] ++ List.range' (16 + 1 * 8) 8 ∧
      (s2.mem.drop (16 + 1 * 8 + 2)).take 6 = [1, 2, 3, 4, 5, 6] := by
  obtain ⟨_, s2, h, hw, hb, _⟩ := keys_beyond_six_dropped true
    ⟨List.replicate 900 0xAA, [], []⟩ 16 1 ⟨0, 10, [1, 2, 3, 4, 5, 6, 7, 8]⟩
    (by decide)
    (by simp only [List.length_replicate]; omega)
    (by simp only [List.length_replicate, maxInt]; omega)
  exact ⟨s2, h, hw, hb⟩

/-! ## Precedence of the variants -/

/-- The region of a row that is not encoded as a program is left as it was. -/
theorem getElem?_table_region (L : Nat → Nat × Bool) (bindings : ButtonBindings)
    (m : List Nat) (q : Row) (idx : Nat)
    (hn : ∀ r ∈ bs bindings, TakesProgram r.binding → stepCount r.binding ≤ 99)
    (hq : q ∈ bs bindings) (hnt : ¬ TakesProgram q.binding)
    (hlo : q.progoff ≤ idx) (hhi : idx < q.progoff + 800) :
    (setMany m (tableWrites L (bs bindings)))[idx]? = m[idx]? := by
  have hall : ∀ a ∈ bs bindings, ∀ b ∈ bs bindings, a.boff < b.progoff := by
    intro a ha b hb
    simp only [bs, List.mem_cons, List.mem_singleton, List.not_mem_nil, or_false] at ha hb
    rcases ha with rfl | rfl | rfl | rfl | rfl | rfl | rfl | rfl <;>
      rcases hb with rfl | rfl | rfl | rfl | rfl | rfl | rfl | rfl <;>
        simp [loc_b1, loc_b2, loc_b3, loc_b4, loc_b5, loc_b6, loc_b7, loc_b8,
          loc_prog1, loc_prog2, loc_prog3, loc_prog4, loc_prog5, loc_prog6,
          loc_prog7, loc_prog8]
  have hdis : ∀ a ∈ bs bindings, ∀ b ∈ bs bindings, a = b ∨
      a.progoff + 800 ≤ b.progoff ∨ b.progoff + 800 ≤ a.progoff := by
    intro a ha b hb
    simp only [bs, List.mem_cons, List.mem_singleton, List.not_mem_nil, or_false] at ha hb
    rcases ha with rfl | rfl | rfl | rfl | rfl | rfl | rfl | rfl <;>
      rcases hb with rfl | rfl | rfl | rfl | rfl | rfl | rfl | rfl <;>
        simp [loc_prog1, loc_prog2, loc_prog3, loc_prog4, loc_prog5, loc_prog6,
          loc_prog7, loc_prog8]
  refine getElem?_table_frame L bindings m idx hn ?_ ?_
  · intro r hr hidx
    have := hall r hr q hq
    omega
  · intro r hr hrt hin
    rcases hdis r hr q hq with h1 | h1 | h1
    · exact hnt (h1 ▸ hrt)
    · omega
    · omega

theorem writeButton_key_first (L : Nat → Nat × Bool) (D : Bool) (s : Proc)
    (boff kp poff key : Nat) (str : List Nat) (prog : Option Program)
    (hkey : key ≠ HIDKeyboardKey_NULL) :
    writeButton L D s ⟨some ⟨key, str, prog⟩, boff, kp, poff⟩ =
      writeButton L D s ⟨some ⟨key, [], none⟩, boff, kp, poff⟩ := by
  simp [writeButton, GetKey, hkey]

theorem writeButton_string_second (L : Nat → Nat × Bool) (D : Bool) (s : Proc)
    (boff kp poff ch : Nat) (rest : List Nat) (prog : Option Program) :
    writeButton L D s ⟨some ⟨HIDKeyboardKey_NULL, ch :: rest, prog⟩, boff, kp, poff⟩ =
      writeButton L D s ⟨some ⟨HIDKeyboardKey_NULL, [ch], none⟩, boff, kp, poff⟩ := by
  simp [writeButton, GetKey, GetString_]

/-- C17: `writeFirmware` applies the precedence key, then string, then program.
In an image of at least 27804 bytes with every button populated and every
encoded program of at most 99 steps, for a button (row `r` of the table): if
its key is not `NULL` the call ends normally with the key byte at the button's
offset and the button's program region as it was, whatever its string and
program; if its key is `NULL` and its string is not empty the call ends
normally with the byte resolved from the first byte of the string at the
button's offset and the program region as it was. On any image the call gives
the same result as with the later variants removed from the binding. -/
theorem variant_precedence (L : Nat → Nat × Bool) (D : Bool) (s : Proc)
    (bindings : ButtonBindings) (k : Nat) (r : Row)
    (hlen : 27804 ≤ s.mem.length) (hmax : s.mem.length ≤ maxInt)
    (hpop : ∀ q ∈ bs bindings, Populated q.binding)
    (hsteps : ∀ q ∈ bs bindings, TakesProgram q.binding → stepCount q.binding ≤ 99)
    (hr : (bs bindings)[k - 1]? = some r) :
    (GetKey r.binding ≠ HIDKeyboardKey_NULL →
      ∃ s2, writeFirmware L D s bindings = .ok s2 ∧
        s2.mem[r.boff]? = some (toByte (GetKey r.binding)) ∧
        ∀ idx, r.progoff ≤ idx → idx < r.progoff + 800 → s2.mem[idx]? = s.mem[idx]?) ∧
    (GetKey r.binding = HIDKeyboardKey_NULL → ∀ ch rest, GetString_ r.binding = ch :: rest →
      ∃ s2, writeFirmware L D s bindings = .ok s2 ∧
        s2.mem[r.boff]? = some (toByte (L ch).1) ∧
        ∀ idx, r.progoff ≤ idx → idx < r.progoff + 800 → s2.mem[idx]? = s.mem[idx]?) ∧
    (∀ (t : Proc) (key : Nat) (str : List Nat) (prog : Option Program),
      key ≠ HIDKeyboardKey_NULL →
      writeFirmware L D t (setButton bindings k (some ⟨key, str, prog⟩)) =
        writeFirmware L D t (setButton bindings k (some ⟨key, [], none⟩))) ∧
    (∀ (t : Proc) (ch : Nat) (rest : List Nat) (prog : Option Program),
      writeFirmware L D t (setButton bindings k
          (some ⟨HIDKeyboardKey_NULL, ch :: rest, prog⟩)) =
        writeFirmware L D t (setButton bindings k (some ⟨HIDKeyboardKey_NULL, [ch], none⟩))) := by
  obtain ⟨s2, h, hm, _⟩ := writeFirmware_ok L D s bindings hlen hmax hpop hsteps
  obtain ⟨hmem, _, _, _⟩ := bs_row bindings k r hr
  have hb := bs_bounds bindings r hmem
  refine ⟨?_, ?_, ?_, ?_⟩
  · intro hkey
    refine ⟨s2, h, ?_, ?_⟩
    · rw [hm]
      exact getElem?_table_of_mem L bindings s.mem r r.boff _ hsteps hmem
        (mem_rowWrites_key L r hkey) (by omega)
    · intro idx hlo hhi
      rw [hm]
      exact getElem?_table_region L bindings s.mem r idx hsteps hmem
        (fun ht => hkey ht.1) hlo hhi
  · intro hkey ch rest hstr
    have hne : GetString_ r.binding ≠ [] := by
      rw [hstr]
      exact List.cons_ne_nil _ _
    refine ⟨s2, h, ?_, ?_⟩
    · rw [hm]
      have hpair := mem_rowWrites_string L r hkey hne
      simp only [hstr, List.head_cons] at hpair
      exact getElem?_table_of_mem L bindings s.mem r r.boff _ hsteps hmem hpair (by omega)
    · intro idx hlo hhi
      rw [hm]
      exact getElem?_table_region L bindings s.mem r idx hsteps hmem
        (fun ht => hne ht.2.1) hlo hhi
  · intro t key str prog hkey
    have e := fun (u : Proc) (boff kp poff : Nat) =>
      writeButton_key_first L D u boff kp poff key str prog hkey
    unfold setButton
    split <;> simp only [writeFirmware, bs, writeButtons, e]
  · intro t ch rest prog
    have e := fun (u : Proc) (boff kp poff : Nat) =>
      writeButton_string_second L D u boff kp poff ch rest prog
    unfold setButton
    split <;> simp only [writeFirmware, bs, writeButtons, e]

theorem mixedBindings_populated : ∀ q ∈ bs mixedBindings, Populated q.binding := by
  intro q hq
  simp only [bs, List.mem_cons, List.mem_singleton, List.not_mem_nil, or_false] at hq
  rcases hq with rfl | rfl | rfl | rfl | rfl | rfl | rfl | rfl <;>
    simp [Populated, mixedBindings, GetKey, GetString_, GetProgram, HIDKeyboardKey_NULL]

theorem mixedBindings_steps :
    ∀ q ∈ bs mixedBindings, TakesProgram q.binding → stepCount q.binding ≤ 99 := by
  intro q hq
  simp only [bs, List.mem_cons, List.mem_singleton, List.not_mem_nil, or_false] at hq
  rcases hq with rfl | rfl | rfl | rfl | rfl | rfl | rfl | rfl <;>
    simp [TakesProgram, stepCount, mixedBindings, GetKey, GetString_, GetProgram,
      GetProgramSet, HIDKeyboardKey_NULL]

/-- C17 on an input: button 1 of `mixedBindings` has a key, a string and a
program; the key `0x04` is at `0x5189` and the first byte of its program region
is as it was. -/
theorem variant_precedence_witness :
    ∃ s2, writeFirmware (fun c => (c, true)) true exampleImage mixedBindings = .ok s2 ∧
      s2.mem[0x5189]? = some 0x04 ∧ s2.mem[0x539c]? = exampleImage.mem[0x539c]? := by
  obtain ⟨hkey, _, _, _⟩ := variant_precedence (fun c => (c, true)) true exampleImage
    mixedBindings 1 ⟨mixedBindings.button1, loc_b1, key_prog1, loc_prog1⟩
    (by rw [exampleImage_length]) (by rw [exampleImage_length]; unfold maxInt; omega)
    mixedBindings_populated mixedBindings_steps rfl
  obtain ⟨s2, h, hb, hreg⟩ := hkey (by decide)
  exact ⟨s2, h, hb, hreg 0x539c (by decide) (by decide)⟩

/-! ## Two runs side by side -/

theorem related_bind {R : Proc → Proc → Prop} {r1 r2 : Except Fault Proc}
    {k1 k2 : Proc → Except Fault Proc} (h : Related R r1 r2)
    (hk : ∀ a b, R a b → Related R (k1 a) (k2 b)) :
    Related R (r1 >>= k1) (r2 >>= k2) := by
  cases r1 with
  | error e1 =>
    cases r2 with
    | error e2 => exact h
    | ok b => exact h.elim
  | ok a =>
    cases r2 with
    | error e2 => exact h.elim
    | ok b => exact hk a b h

theorem store_related {R : Proc → Proc → Prop} (hR : StoreStable R) (a b : Proc)
    (v off : Nat) (h : R a b) : Related R (store a v off) (store b v off) := by
  have hl := hR.length_eq a b h
  unfold store
  by_cases ho : off < a.mem.length
  · rw [if_pos ho, if_pos (hl ▸ ho)]
    exact hR.store a b v off h ho
  · rw [if_neg ho, if_neg (hl ▸ ho)]
    exact rfl

theorem writeByteAtOffset_related {R : Proc → Proc → Prop} (hR : StoreStable R) (D : Bool)
    (a b : Proc) (v off : Nat) (h : R a b) :
    Related R (writeByteAtOffset D a v off) (writeByteAtOffset D b v off) := by
  unfold writeByteAtOffset
  exact store_related hR _ _ v off (hR.debug a b D _ h)

theorem writeKeys_related {R : Proc → Proc → Prop} (hR : StoreStable R) (D : Bool)
    (keys : List Nat) (start : Nat) (js : List Nat) (a b : Proc) (h : R a b) :
    Related R (writeKeys D keys start js a) (writeKeys D keys start js b) := by
  induction js generalizing a b with
  | nil => exact h
  | cons j js ih =>
    rw [writeKeys, writeKeys]
    exact related_bind (writeByteAtOffset_related hR D a b _ _ h) (fun x y hxy => ih x y hxy)

theorem writeProgramSet_related {R : Proc → Proc → Prop} (hR : StoreStable R) (D : Bool)
    (offset i : Nat) (ps : ProgramSet) (a b : Proc) (h : R a b) :
    Related R (writeProgramSet D offset i ps a) (writeProgramSet D offset i ps b) := by
  unfold writeProgramSet
  refine related_bind (writeByteAtOffset_related hR D _ _ _ _
    (hR.debug _ _ D _ (hR.debug _ _ D _ h))) ?_
  intro x y hxy
  refine related_bind (writeByteAtOffset_related hR D _ _ _ _ (hR.debug _ _ D _ hxy)) ?_
  intro x2 y2 hxy2
  exact writeKeys_related hR D _ _ _ _ _ (hR.debug _ _ D _ hxy2)

theorem writeProgramSets_related {R : Proc → Proc → Prop} (hR : StoreStable R) (D : Bool)
    (offset : Nat) (steps : List ProgramSet) (idx i : Nat) (a b : Proc) (h : R a b) :
    RelatedIdx R (writeProgramSets D offset steps idx i a)
      (writeProgramSets D offset steps idx i b) := by
  induction steps generalizing idx i a b with
  | nil => exact ⟨h, rfl⟩
  | cons ps rest ih =>
    rw [writeProgramSets, writeProgramSets]
    have hs := writeProgramSet_related hR D offset idx ps a b h
    cases h1 : writeProgramSet D offset idx ps a with
    | error e1 =>
      cases h2 : writeProgramSet D offset idx ps b with
      | error e2 =>
        rw [h1, h2] at hs
        exact hs
      | ok y =>
        rw [h1, h2] at hs
        exact hs.elim
    | ok x =>
      cases h2 : writeProgramSet D offset idx ps b with
      | error e2 =>
        rw [h1, h2] at hs
        exact hs.elim
      | ok y =>
        rw [h1, h2] at hs
        exact ih (idx + 1) idx x y hs

theorem zeroFrom_related {R : Proc → Proc → Prop} (hR : StoreStable R) (l : List Nat)
    (a b : Proc) (h : R a b) : Related R (zeroFrom l a) (zeroFrom l b) := by
  induction l generalizing a b with
  | nil => exact h
  | cons p l ih =>
    rw [zeroFrom, zeroFrom]
    exact related_bind (store_related hR a b _ _ h) (fun x y hxy => ih x y hxy)

theorem padWithZeroes_related {R : Proc → Proc → Prop} (hR : StoreStable R) (D : Bool)
    (start offset : Nat) (a b : Proc) (h : R a b) :
    Related R (padWithZeroes D start offset a) (padWithZeroes D start offset b) := by
  unfold padWithZeroes
  refine related_bind (zeroFrom_related hR _ _ _ (hR.debug _ _ D _ (hR.debug _ _ D _ h))) ?_
  intro x y hxy
  exact hR.debug x y D _ hxy

theorem writeProgramAtOffset_related {R : Proc → Proc → Prop} (hR : StoreStable R)
    (D : Bool) (a b : Proc) (prog : Option Program) (offset : Nat) (h : R a b) :
    Related R (writeProgramAtOffset D a prog offset) (writeProgramAtOffset D b prog offset) := by
  unfold writeProgramAtOffset
  dsimp only
  have hs := writeProgramSets_related hR D offset (GetProgramSet prog) 0 0
    (DebugPrintf D "writeProgramAtOffset prog=%v offset=%v" a)
    (DebugPrintf D "writeProgramAtOffset prog=%v offset=%v" b) (hR.debug a b D _ h)
  cases h1 : writeProgramSets D offset (GetProgramSet prog) 0 0
      (DebugPrintf D "writeProgramAtOffset prog=%v offset=%v" a) with
  | error e1 =>
    cases h2 : writeProgramSets D offset (GetProgramSet prog) 0 0
        (DebugPrintf D "writeProgramAtOffset prog=%v offset=%v" b) with
    | error e2 =>
      rw [h1, h2] at hs
      exact hs
    | ok y =>
      rw [h1, h2] at hs
      exact hs.elim
  | ok x =>
    cases h2 : writeProgramSets D offset (GetProgramSet prog) 0 0
        (DebugPrintf D "writeProgramAtOffset prog=%v offset=%v" b) with
    | error e2 =>
      rw [h1, h2] at hs
      exact hs.elim
    | ok y =>
      rw [h1, h2] at hs
      obtain ⟨x1, ix⟩ := x
      obtain ⟨y1, iy⟩ := y
      obtain ⟨hxy, hi⟩ := hs
      simp only at hxy hi
      subst hi
      show Related R (writeByteAtOffset D _ _ _ >>= _) (writeByteAtOffset D _ _ _ >>= _)
      refine related_bind (writeByteAtOffset_related hR D _ _ _ _ (hR.debug _ _ D _ hxy)) ?_
      intro x2 y2 hxy2
      exact padWithZeroes_related hR D _ _ x2 y2 hxy2

theorem writeButton_related {R : Proc → Proc → Prop} (hR : StoreStable R)
    (L : Nat → Nat × Bool) (D : Bool) (a b : Proc) (r : Row) (h : R a b) :
    Related R (writeButton L D a r) (writeButton L D b r) := by
  unfold writeButton
  by_cases hk : GetKey r.binding = HIDKeyboardKey_NULL
  · by_cases hs : GetString_ r.binding = []
    · cases hg : GetProgram r.binding with
      | none =>
        simp only [hk, hs, hg, ne_eq, not_true_eq_false, if_false, dite_false]
        exact rfl
      | some prog =>
        simp only [hk, hs, hg, ne_eq, not_true_eq_false, if_false, dite_false]
        refine related_bind (writeByteAtOffset_related hR D _ _ _ _ (hR.debug _ _ D _ h)) ?_
        intro x y hxy
        exact writeProgramAtOffset_related hR D x y _ _ hxy
    · simp only [hk, hs, ne_eq, not_true_eq_false, if_false, not_false_eq_true, dite_true]
      exact writeByteAtOffset_related hR D _ _ _ _ (hR.debug _ _ D _ h)
  · simp only [hk, ne_eq, not_false_eq_true, if_true]
    exact writeByteAtOffset_related hR D _ _ _ _ (hR.debug _ _ D _ h)

theorem writeButtons_related {R : Proc → Proc → Prop} (hR : StoreStable R)
    (L : Nat → Nat × Bool) (D : Bool) (rows : List Row) (a b : Proc) (h : R a b) :
    Related R (writeButtons L D rows a) (writeButtons L D rows b) := by
  induction rows generalizing a b with
  | nil => exact h
  | cons r rest ih =>
    rw [writeButtons, writeButtons]
    exact related_bind (writeButton_related hR L D a b r h) (fun x y hxy => ih x y hxy)

theorem sameLength_stable (n : Nat) : StoreStable (SameLength n) where
  length_eq := fun a b h => by rw [h.1, h.2]
  store := fun a b v off h _ => by
    unfold SameLength
    simp only [List.length_set]
    exact h
  debug := fun a b D f h => by
    unfold SameLength
    simp only [DebugPrintf_mem]
    exact h

theorem settled_stable (F : List Nat) : StoreStable (Settled F) where
  length_eq := fun a b h => h.1
  store := fun a b v off h ho => by
    refine ⟨by simp only [List.length_set]; exact h.1, ?_⟩
    intro idx
    simp only
    by_cases hi : off = idx
    · left
      subst hi
      rw [List.getElem?_set_eq_of_lt _ ho, List.getElem?_set_eq_of_lt _ (h.1 ▸ ho)]
    · rw [List.getElem?_set_ne hi, List.getElem?_set_ne hi]
      exact h.2 idx
  debug := fun a b D f h => by
    unfold Settled
    simp only [DebugPrintf_mem]
    exact h

/-! ## Idempotence -/

/-- C16: when `writeFirmware` ends normally on a buffer, with result `s2`,
running it again on the returned buffer with the same bindings ends normally
and returns the same bytes. -/
theorem writeFirmware_idempotent (L : Nat → Nat × Bool) (D : Bool) (s s2 : Proc)
    (bindings : ButtonBindings) (h : writeFirmware L D s bindings = .ok s2) :
    ∃ s3, writeFirmware L D s2 bindings = .ok s3 ∧ s3.mem = s2.mem := by
  have hlen : s.mem.length = s2.mem.length := by
    have hr := writeButtons_related (sameLength_stable s.mem.length) L D (bs bindings) s s
      ⟨rfl, rfl⟩
    unfold writeFirmware at h
    rw [h] at hr
    exact hr.1.symm
  have hr := writeButtons_related (settled_stable s2.mem) L D (bs bindings) s s2
    ⟨hlen, fun idx => Or.inr rfl⟩
  unfold writeFirmware at h ⊢
  rw [h] at hr
  cases h3 : writeButtons L D (bs bindings) s2 with
  | error e =>
    rw [h3] at hr
    exact hr.elim
  | ok s3 =>
    rw [h3] at hr
    refine ⟨s3, rfl, ?_⟩
    apply List.ext_getElem?
    intro idx
    rcases hr.2 idx with h1 | h1 <;> exact h1

/-- C16 on the example image and bindings: the call ends normally and a second
call on its result returns the same bytes. -/
theorem writeFirmware_idempotent_witness :
    ∃ s2 s3, writeFirmware (fun c => (c, true)) true exampleImage exampleBindings = .ok s2 ∧
      writeFirmware (fun c => (c, true)) true s2 exampleBindings = .ok s3 ∧
      s3.mem = s2.mem := by
  obtain ⟨s2, h, _⟩ := writeFirmware_ok (fun c => (c, true)) true exampleImage
    exampleBindings (by rw [exampleImage_length])
    (by rw [exampleImage_length]; unfold maxInt; omega)
    exampleBindings_populated exampleBindings_steps
  obtain ⟨s3, h3, hm⟩ := writeFirmware_idempotent (fun c => (c, true)) true exampleImage s2
    exampleBindings h
  exact ⟨s2, s3, h, h3, hm⟩

end Falcon
